import Mathlib

set_option maxRecDepth 200000

/-!
Shallow embedding of the rANS static codec in io_lib (src/io_lib/rANS_static.c):
the rANS byte-wise coder primitives (rans_byte.h section at the top of the
file), the order-0 and order-1 frequency models, table serialisation,
and the four entry points rans_compress_O0 / rans_uncompress_O0 /
rans_compress_O1 / rans_uncompress_O1 / rans_compress / rans_uncompress.

Modelling conventions, used consistently below:
* machine integers are Nat (or Int where the C works with possibly negative
  int values); uint32 wrap-around is written explicitly as % 2^32 at the only
  places the C can overflow;
* byte output written through a descending pointer (the encoder moves *--ptr
  backwards from the end of the buffer) is modelled by prepending to a list
  that represents the final ascending memory order;
* C while loops are modelled either by structural recursion on a consumed
  list, or with an explicit fuel argument that is provably never exhausted on
  the loop's real domain (fuel exhaustion models the undefined behaviour of
  running past the loop's intended domain);
* fallible paths return Option; none models returning NULL, an assert
  failure, or undefined behaviour (division by zero, out-of-bounds reads,
  shift counts of 32 or more on a 32-bit value);
* reads of uninitialised memory (malloc-ed lookup table slots never written,
  never-initialised stack symbol records) are modelled as the value 0 or a
  zero record; no claim below depends on those values;
* malloc is assumed to succeed (allocation failure is the spec's separate
  error class and is not what any claim is about).
-/

/-! ## Constants of the format -/

def TF_SHIFT : Nat := 12

def TOTFREQ : Nat := 2 ^ 12

def RANS_BYTE_L : Nat := 2 ^ 23

/-! ## Byte-stream helpers -/

/-- Little-endian encoding of a 32-bit value into 4 bytes, as written by the
header stores and by RansEncFlush. -/
def le32 (x : Nat) : List Nat :=
  [x % 256, (x >>> 8) % 256, (x >>> 16) % 256, (x >>> 24) % 256]

/-- Little-endian read of 4 bytes, as done by the header loads and by
RansDecInit; missing bytes (reads past the end of the frame) read as 0. -/
def rdLE32 (l : List Nat) : Nat :=
  l.getD 0 0 + (l.getD 1 0) * 256 + (l.getD 2 0) * 65536 + (l.getD 3 0) * 16777216

theorem rdLE32_le32 (x : Nat) (rest : List Nat) (h : x < 2 ^ 32) :
    rdLE32 (le32 x ++ rest) = x := by
  simp only [le32, rdLE32, List.cons_append, List.getD_cons_zero,
    List.getD_cons_succ, Nat.shiftRight_eq_div_pow]
  omega

/-! ## rANS state engine (rans_byte.h)

The coder state is a uint32; RANS_BYTE_L = 2^23 is the lower bound of the
normalisation interval. -/

/-- Structure RansEncSymbol from rans_byte.h: the precomputed per-symbol
encoder record. cmpl_freq and rcp_shift are uint16 in C; the values stored
fit, so they are kept as Nat. -/
structure RansEncSymbol where
  x_max : Nat
  rcp_freq : Nat
  bias : Nat
  cmpl_freq : Nat
  rcp_shift : Nat
  deriving DecidableEq, Repr

/-- Record of a symbol with frequency 0 is never initialised by the table
loops; reads of such uninitialised records are modelled as this zero record. -/
def zeroEncSymbol : RansEncSymbol :=
  { x_max := 0, rcp_freq := 0, bias := 0, cmpl_freq := 0, rcp_shift := 0 }

/-- Renormalisation loop of the encoder (shared by RansEncRenorm and the
inlined copy in RansEncPutSymbol):
while (x >= x_max) { *--ptr = x & 0xff; x >>= 8; }.
Emitted bytes are prepended to acc, which holds the stream in ascending
memory order.  The 1 <= xmax conjunct reflects that x_max = 0 (a freq-0
symbol, forbidden by the code's RansAssert(sym->x_max != 0)) would loop
forever; fuel 8 is enough for every x < 2^32 with xmax >= 1. -/
def encRenormGo (xmax : Nat) : Nat → Nat → List Nat → Nat × List Nat
  | 0, x, acc => (x, acc)
  | fuel + 1, x, acc =>
    if 1 ≤ xmax ∧ xmax ≤ x then
      encRenormGo xmax fuel (x >>> 8) (x % 256 :: acc)
    else
      (x, acc)

def encRenorm (xmax : Nat) (x : Nat) (acc : List Nat) : Nat × List Nat :=
  encRenormGo xmax 8 x acc

/-- Operation RansEncPut: the textbook encode step.  Renormalise, then
x' = ((x / freq) << scale_bits) + (x % freq) + start, in uint32 arithmetic.
In C, freq = 0 would divide by zero; Nat division by zero yields 0 here and
the claims only use freq >= 1. -/
def RansEncPut (x : Nat) (acc : List Nat) (start freq scale_bits : Nat) :
    Nat × List Nat :=
  let xm := ((RANS_BYTE_L >>> scale_bits) <<< 8) * freq
  let r := encRenorm xm x acc
  ((((r.1 / freq) <<< scale_bits) + r.1 % freq + start) % 2 ^ 32, r.2)

/-- Operation RansEncPutSymbol: the fast encode step using the precomputed
record.  q = (uint32)(((uint64)x * rcp_freq) >> rcp_shift) (the extra +32 is
already folded into rcp_shift by RansEncSymbolInit); the 64-bit product never
overflows for x, rcp_freq < 2^32, so Nat arithmetic is exact; the final
uint32 additions wrap, written % 2^32. -/
def RansEncPutSymbol (x : Nat) (acc : List Nat) (sym : RansEncSymbol) :
    Nat × List Nat :=
  let r := encRenorm sym.x_max x acc
  let q := ((r.1 * sym.rcp_freq) >>> sym.rcp_shift) % 2 ^ 32
  ((r.1 + sym.bias + q * sym.cmpl_freq) % 2 ^ 32, r.2)

/-- Operation RansEncFlush: emit the 4 bytes of the state; ptr -= 4 then
ptr[0..3] = x little-endian, so the stream (ascending memory order) gains the
little-endian bytes of x at its front. -/
def RansEncFlush (x : Nat) (acc : List Nat) : List Nat :=
  le32 x ++ acc

/-- Shift loop of RansEncSymbolInit: shift = 0; while (freq > 1u << shift)
shift++.  When freq > 2^31 the loop would evaluate 1u << 32, undefined
behaviour on a 32-bit value (and on common targets an infinite loop), hence
none; fuel 34 is enough to reach shift = 32 from 0. -/
def encShiftGo (freq : Nat) : Nat → Nat → Option Nat
  | 0, _ => none
  | fuel + 1, s =>
    if 32 ≤ s then none
    else if 2 ^ s < freq then encShiftGo freq fuel (s + 1)
    else some s

def encShift (freq : Nat) : Option Nat :=
  encShiftGo freq 34 0

/-- Operation RansEncSymbolInit: build the encoder record for (start, freq)
at a given scale.  The freq < 2 branch stores the special case
rcp_freq = 0xFFFFFFFF, rcp_shift = 0, bias = start + (1 << scale_bits) - 1;
the freq >= 2 branch uses the reciprocal method
rcp_freq = ceil(2^(shift+31) / freq), rcp_shift = shift - 1, bias = start.
Both branches finish with rcp_shift += 32.  The RansAsserts in the C are
disabled (assert.h is included only after rans_byte.h), so no range check is
modelled; none arises only from the undefined shift loop. -/
def RansEncSymbolInit (start freq scale_bits : Nat) : Option RansEncSymbol :=
  let x_max := ((RANS_BYTE_L >>> scale_bits) <<< 8) * freq
  let cmpl_freq := (2 ^ scale_bits) - freq
  if freq < 2 then
    some { x_max := x_max, rcp_freq := 2 ^ 32 - 1, bias := start + 2 ^ scale_bits - 1,
           cmpl_freq := cmpl_freq, rcp_shift := 0 + 32 }
  else
    match encShift freq with
    | none => none
    | some shift =>
      some { x_max := x_max,
             rcp_freq := (2 ^ (shift + 31) + freq - 1) / freq,
             bias := start, cmpl_freq := cmpl_freq, rcp_shift := (shift - 1) + 32 }

/-- Structure RansDecSymbol: start and freq of a symbol (uint16 fields; the
parsers only store values <= 4096, so the casts are value-preserving). -/
structure RansDecSymbol where
  start : Nat
  freq : Nat
  deriving DecidableEq, Repr

def zeroDecSymbol : RansDecSymbol := { start := 0, freq := 0 }

/-- Operation RansDecInit: read the 4 initial state bytes little-endian and
advance; reads past the end of the frame (undefined in C) read 0. -/
def RansDecInit (l : List Nat) : Nat × List Nat :=
  (rdLE32 l, l.drop 4)

/-- Operation RansDecGet: the low scale_bits bits of the state. -/
def RansDecGet (x : Nat) (scale_bits : Nat) : Nat :=
  x % 2 ^ scale_bits

/-- Renormalisation loop of the decoder: while (x < L) x = (x << 8) | *ptr++.
Structural recursion on the consumed byte list; at the end of the input the
C would read past the frame (undefined behaviour); the model stops
renormalising there, and no claim depends on the state in that case. -/
def decRenorm : Nat → List Nat → Nat × List Nat
  | x, [] => (x, [])
  | x, b :: rest =>
    if x < RANS_BYTE_L then decRenorm ((x <<< 8 + b) % 2 ^ 32) rest
    else (x, b :: rest)

/-- Operation RansDecAdvance step (without renormalisation):
x' = freq * (x >> scale_bits) + (x & mask) - start in uint32 arithmetic;
the subtraction may wrap in C, so it is modelled two's-complement style:
adding 2^32 - start before reducing % 2^32 (the parsers only produce
start <= 4096 < 2^32). -/
def decAdvanceStep (x start freq scale_bits : Nat) : Nat :=
  (freq * (x >>> scale_bits) + x % 2 ^ scale_bits + (2 ^ 32 - start)) % 2 ^ 32

/-- Operation RansDecAdvanceSymbol: advance step followed by renormalisation
reading from the stream. -/
def RansDecAdvanceSymbol (x : Nat) (l : List Nat) (sym : RansDecSymbol)
    (scale_bits : Nat) : Nat × List Nat :=
  decRenorm (decAdvanceStep x sym.start sym.freq scale_bits) l

/-! ## Binary64 model

Order-1 normalisation in rans_compress_O1 uses C double arithmetic:
double p = ((double)TOTFREQ)/T[i]; followed by F[i][j] *= p (an int-double
product rounded to double, then truncated toward zero when stored back into
the int).  Doubles are dyadic rationals; every value this code meets is
strictly positive and far inside the normal range, so binary64 is modelled
exactly as a pair (significand, binary exponent) with round-to-nearest,
ties-to-even at 53 significant bits. -/

/-- Pair m * 2^e representing a (positive, normal-range) binary64 value. -/
structure F64 where
  m : Nat
  e : Int
  deriving DecidableEq, Repr

/-- Floor of the base-2 logarithm, by fueled structural recursion (fuel 128
covers every value the model meets). -/
def nlog2Go : Nat → Nat → Nat
  | 0, _ => 0
  | fuel + 1, n => if n ≤ 1 then 0 else nlog2Go fuel (n / 2) + 1

def nlog2 (n : Nat) : Nat := nlog2Go 128 n

/-- Round the rational n / d to the nearest integer, ties to even. -/
def rne (n d : Nat) : Nat :=
  let q := n / d
  let r := n % d
  if 2 * r < d then q
  else if d < 2 * r then q + 1
  else if q % 2 = 0 then q else q + 1

/-- Floor of log2 (a / b) for a, b >= 1, as an Int. -/
def qlog2 (a b : Nat) : Int :=
  let d : Int := (nlog2 a : Int) - (nlog2 b : Int)
  let ok : Bool := if 0 ≤ d then decide (b * 2 ^ d.toNat ≤ a) else decide (b ≤ a * 2 ^ (-d).toNat)
  if ok then d else d - 1

/-- Binary64 quotient of two positive naturals: round a / b to 53 significant
bits, ties to even.  This is the IEEE double division used for
p = ((double)TOTFREQ) / T[i]. -/
def fdivNat (a b : Nat) : F64 :=
  let e := qlog2 a b
  let m := if e ≤ 52 then rne (a * 2 ^ (52 - e).toNat) b else rne a (b * 2 ^ (e - 52).toNat)
  { m := m, e := e - 52 }

/-- Binary64 product of a natural number (exactly representable: every count
here is far below 2^53) and a binary64 value, rounded to 53 significant bits,
ties to even.  This is the IEEE double product in F[i][j] *= p. -/
def fmulNat (c : Nat) (p : F64) : F64 :=
  let prod := c * p.m
  let lp := nlog2 prod
  if lp ≤ 52 then { m := prod, e := p.e }
  else
    let k := lp - 52
    let q := prod >>> k
    let r := prod % 2 ^ k
    let half := 2 ^ (k - 1)
    let m := if r < half then q else if half < r then q + 1 else if q % 2 = 0 then q else q + 1
    { m := m, e := p.e + k }

/-- Truncation of a positive binary64 value toward zero, the C (int)
conversion when the double is stored back into the int table entry. -/
def ftruncNat (p : F64) : Nat :=
  if 0 ≤ p.e then p.m <<< p.e.toNat else p.m >>> (-p.e).toNat

/-! ## Order-0 frequency model (rans_compress_O0, lines 419-445)

The statistics loop F[in[i]]++ makes F[j] the number of occurrences of byte
j.  The normalisation loop computes, in one pass over j = 0..255, the raw
argmax (m, M), the scaled counts, and their sum fsum; the three are written
here as separate definitions, which is the same computation because the
loop body couples them only through the per-j raw count. -/

def countF (inp : List Nat) : Nat → Nat := fun j => inp.count j

/-- Scaling factor tr = ((uint64_t)TOTFREQ << 31) / in_size + (1 << 30) / in_size.
Meaningful only for in_size >= 1 (in_size = 0 divides by zero and is guarded
at the call site). -/
def trVal (n : Nat) : Nat := (TOTFREQ <<< 31) / n + 2 ^ 30 / n

/-- Scaled count of the normalisation loop:
if ((F[j] = (F[j]*tr) >> 31) == 0) F[j] = 1; (only for F[j] != 0).
The products stay below 2^44, so uint64 arithmetic is exact. -/
def o0Scaled (F : Nat → Nat) (n : Nat) : Nat → Nat := fun j =>
  if F j = 0 then 0
  else if (F j * trVal n) >>> 31 = 0 then 1 else (F j * trVal n) >>> 31

/-- Fold step for the raw argmax: if (m < F[j]) m = F[j], M = j; (the skip of
F[j] = 0 entries never changes (m, M) because m < 0 is false). -/
def argmaxStep (F : Nat → Nat) (p : Nat × Nat) (j : Nat) : Nat × Nat :=
  if p.1 < F j then (F j, j) else p

/-- Value M after the loop: index of the first maximal raw count. -/
def argmaxF (F : Nat → Nat) : Nat :=
  ((List.range 256).foldl (argmaxStep F) (0, 0)).2

def sum256 (G : Nat → Nat) : Nat := ((List.range 256).map G).sum

/-- Value of fsum after the loop and the fsum++ that follows it. -/
def o0Fsum (F : Nat → Nat) (n : Nat) : Nat := sum256 (o0Scaled F n) + 1

/-- Normalised frequencies: after the loop the code adjusts the entry of the
most frequent symbol by TOTFREQ - fsum, which the two C branches
(F[M] += TOTFREQ-fsum / F[M] -= fsum-TOTFREQ) implement for either sign;
the result is an Int because the adjustment can be negative. -/
def o0Norm (F : Nat → Nat) (n : Nat) : Nat → Int := fun j =>
  if j = argmaxF F then
    (o0Scaled F n j : Int) + ((TOTFREQ : Int) - (o0Fsum F n : Int))
  else
    (o0Scaled F n j : Int)

/-! ## Table serialisation (order-0: lines 450-477; the same loop shape is
used per context row by order-1, lines 783-813) -/

/-- Frequency encoding: 1 byte when F < 128, else (0x80 | (F >> 8)) followed
by (F & 0xff).  Every stored frequency is at most 4095, well inside the
15-bit range. -/
def freqBytes (F : Nat) : List Nat :=
  if F < 128 then [F] else [128 + (F >>> 8), F % 256]

/-- Run scan for (rle = j+1; rle < 256 && F[rle]; rle++); rle -= j+1 with the
scan starting at index k = j+1: the number of consecutive present symbols
at k, k+1, ... up to index 255. -/
def runScan (F : Nat → Nat) (k : Nat) : Nat :=
  ((List.range (256 - k)).takeWhile (fun t => F (k + t) != 0)).length

/-- Emission loop over symbol indices j (fuel counts the remaining indices;
256 at the top level), carrying the run-length state rle, followed by the
terminating 0 byte.  When F j = 0 the whole body is skipped (rle kept); when
rle > 0 only the frequency is emitted; otherwise the symbol index, then --
if the predecessor symbol is present -- the run-length byte. -/
def emitRowGo (F : Nat → Nat) : Nat → Nat → Nat → List Nat
  | 0, _, _ => [0]
  | fuel + 1, j, rle =>
    if F j = 0 then emitRowGo F fuel (j + 1) rle
    else if 0 < rle then freqBytes (F j) ++ emitRowGo F fuel (j + 1) (rle - 1)
    else if j ≠ 0 ∧ F (j - 1) ≠ 0 then
      j :: runScan F (j + 1) :: (freqBytes (F j) ++ emitRowGo F fuel (j + 1) (runScan F (j + 1)))
    else
      j :: (freqBytes (F j) ++ emitRowGo F fuel (j + 1) 0)

def emitRow (F : Nat → Nat) : List Nat := emitRowGo F 256 0 0

/-- Cumulative frequency x of the table loop just before symbol j is
processed: the sum of the frequencies of the symbols below j. -/
def cum256 (F : Nat → Nat) (j : Nat) : Nat := ((List.range j).map F).sum

/-- Encoder symbol records built by the table loop:
RansEncSymbolInit(&syms[j], x, F[j], TF_SHIFT) for each present j, with x
the running cumulative frequency; records of absent symbols stay
uninitialised (zeroEncSymbol). -/
def buildSyms (F : Nat → Nat) : Nat → Option (Nat → RansEncSymbol)
  | 0 => some fun _ => zeroEncSymbol
  | j + 1 =>
    match buildSyms F j with
    | none => none
    | some s =>
      if F j = 0 then some s
      else
        match RansEncSymbolInit (cum256 F j) (F j) TF_SHIFT with
        | none => none
        | some sym => some fun k => if k = j then sym else s k

def o0Syms (F : Nat → Nat) : Option (Nat → RansEncSymbol) := buildSyms F 256

/-! ## Order-0 encoding loops (lines 482-509) -/

/-- States of the four interleaved coder lanes plus the shared output stream
(in ascending memory order; the C pointer moves backwards). -/
structure EncSt where
  r0 : Nat
  r1 : Nat
  r2 : Nat
  r3 : Nat
  acc : List Nat
  deriving DecidableEq, Repr

def encInitSt : EncSt :=
  { r0 := RANS_BYTE_L, r1 := RANS_BYTE_L, r2 := RANS_BYTE_L, r3 := RANS_BYTE_L, acc := [] }

/-- Operation RansEncPutSymbol(&rans_k, &ptr, &syms[b]) on lane k. -/
def putLane (syms : Nat → RansEncSymbol) (st : EncSt) (k b : Nat) : EncSt :=
  match k with
  | 0 => let r := RansEncPutSymbol st.r0 st.acc (syms b); { st with r0 := r.1, acc := r.2 }
  | 1 => let r := RansEncPutSymbol st.r1 st.acc (syms b); { st with r1 := r.1, acc := r.2 }
  | 2 => let r := RansEncPutSymbol st.r2 st.acc (syms b); { st with r2 := r.1, acc := r.2 }
  | _ => let r := RansEncPutSymbol st.r3 st.acc (syms b); { st with r3 := r.1, acc := r.2 }

/-- Tail switch (lines 487-493): with i = in_size & 3, case 3 pushes
in[in_size-1] on lane 2, case 2 pushes in[in_size-(i-1)] on lane 1, case 1
pushes in[in_size-i] on lane 0 (fall-through order 3, 2, 1). -/
def o0EncTail (syms : Nat → RansEncSymbol) (inp : List Nat) (st : EncSt) : EncSt :=
  let n := inp.length
  match n % 4 with
  | 3 => putLane syms (putLane syms (putLane syms st 2 (inp.getD (n - 1) 0))
           1 (inp.getD (n - 2) 0)) 0 (inp.getD (n - 3) 0)
  | 2 => putLane syms (putLane syms st 1 (inp.getD (n - 1) 0)) 0 (inp.getD (n - 2) 0)
  | 1 => putLane syms st 0 (inp.getD (n - 1) 0)
  | _ => st

/-- Main interleaved loop (lines 494-504): for i = in_size & ~3 down to 4 in
steps of 4, push in[i-1] on lane 3, in[i-2] on lane 2, in[i-3] on lane 1,
in[i-4] on lane 0.  The recursion counts the remaining groups of four
(q groups left means the current i is 4q). -/
def o0EncMainGo (syms : Nat → RansEncSymbol) (inp : List Nat) : Nat → EncSt → EncSt
  | 0, st => st
  | q + 1, st =>
    let st1 := putLane syms st 3 (inp.getD (4 * q + 3) 0)
    let st2 := putLane syms st1 2 (inp.getD (4 * q + 2) 0)
    let st3 := putLane syms st2 1 (inp.getD (4 * q + 1) 0)
    let st4 := putLane syms st3 0 (inp.getD (4 * q) 0)
    o0EncMainGo syms inp q st4

/-- Final flushes (lines 506-509), in the order rans3, rans2, rans1, rans0;
with the backwards-moving pointer the stream ends up as the bytes of rans0,
rans1, rans2, rans3 in ascending memory order, before the coder output. -/
def encFlushAll (st : EncSt) : List Nat :=
  RansEncFlush st.r0 (RansEncFlush st.r1 (RansEncFlush st.r2 (RansEncFlush st.r3 st.acc)))

/-- Binary64 value of the C literal 1.05 (from line 405 / 417). -/
def d105 : F64 := { m := 4728779608739021, e := -52 }

/-- Embedding of rans_compress_O0 (lines 403-530), parameterised by the
frequency function so statements can substitute a closed form for the
counting pass.  The none cases are, in the order the C meets them: the
(int)(1.05*in_size) conversion at line 417 is undefined for results at or
above 2^31; tr at line 423 divides by in_size = 0; assert(F[M] > 0) at line
445; RansEncSymbolInit would loop on a frequency cast from a negative int
(unreachable here after the assert, but the model keeps the check). -/
def o0CompressCore (F : Nat → Nat) (inp : List Nat) : Option (List Nat) :=
  let n := inp.length
  if 2 ^ 31 ≤ ftruncNat (fmulNat n d105) then none
  else if n = 0 then none
  else
    if o0Norm F n (argmaxF F) ≤ 0 then none
    else
      let Fv : Nat → Nat := fun j => (o0Norm F n j).toNat
      let table := emitRow Fv
      match o0Syms Fv with
      | none => none
      | some syms =>
        let st1 := o0EncTail syms inp encInitSt
        let st2 := o0EncMainGo syms inp (n / 4) st1
        let payload := encFlushAll st2
        let outSize := 9 + table.length + payload.length
        some ((0 :: le32 (outSize - 9)) ++ le32 n ++ table ++ payload)

def rans_compress_O0 (inp : List Nat) : Option (List Nat) :=
  o0CompressCore (countF inp) inp

/-! ## Table parsing (order-0: lines 566-595; order-1 inner rows:
lines 924-959, which differ by treating a stored frequency of 0 as TOTFREQ) -/

/-- Frequency read of the parse loops: F = *cp++; if (F >= 128)
F = ((F & 127) << 8) | *cp++ (for a first byte b with 128 <= b < 256 this
is (b - 128) * 256 + the second byte). -/
def readFreq : List Nat → Option (Nat × List Nat)
  | [] => none
  | b :: l1 =>
    if 128 ≤ b then
      match l1 with
      | [] => none
      | b2 :: l2 => some ((b - 128) * 256 + b2, l2)
    else some (b, l1)

/-- Body of the do { ... } while (j) parse loop.  State: remaining bytes,
current symbol j, pending run length rle, cumulative frequency x, and the
(j, F) pairs accepted so far.  Each iteration reads the frequency via
readFreq, applies the order-1 zero-frequency workaround when hack is set,
rejects when the cumulative frequency would exceed TOTFREQ, then reads the
next symbol: if no run is pending and the next byte is exactly j + 1 it is
consumed together with a fresh run-length byte; a pending run advances to
j + 1 consuming nothing; otherwise the next byte is the next symbol index,
with 0 terminating the row.  Fuel exhaustion and reads on an empty list
model the C reading past the frame (each iteration consumes at least one
byte, so fuel = length + 1 at the call sites is never the cause of a none
on inputs the C handles). -/
def parseRowGo (hack : Bool) : Nat → List Nat → Nat → Nat → Nat → List (Nat × Nat) →
    Option (List (Nat × Nat) × List Nat)
  | 0, _, _, _, _, _ => none
  | fuel + 1, l, j, rle, x, acc =>
    match readFreq l with
    | none => none
    | some (f0, l2) =>
      let f := if hack ∧ f0 = 0 then TOTFREQ else f0
      if TOTFREQ < x + f then none
      else
        match l2 with
        | [] => none
        | c :: l3 =>
          if rle = 0 ∧ c = j + 1 then
            match l3 with
            | [] => none
            | rb :: l4 => parseRowGo hack fuel l4 c rb (x + f) (acc ++ [(j, f)])
          else if 0 < rle then
            parseRowGo hack fuel l2 (j + 1) (rle - 1) (x + f) (acc ++ [(j, f)])
          else if c = 0 then some (acc ++ [(j, f)], l3)
          else parseRowGo hack fuel l3 c 0 (x + f) (acc ++ [(j, f)])

/-- Row parse: the first byte is the initial symbol index j (the loop is a
do-while, so the body runs even for j = 0). -/
def parseRow (hack : Bool) (l : List Nat) : Option (List (Nat × Nat) × List Nat) :=
  match l with
  | [] => none
  | j0 :: l1 => parseRowGo hack (l.length + 1) l1 j0 0 0 []

/-! ## Decoder tables from parsed rows

The C fills D.fc[j].F / D.fc[j].C, the reverse lookup D.R, and syms[j] inside
the parse loop; the byte consumption is unchanged by separating the map
construction, which folds over the accepted (j, F) pairs with the same
running cumulative x.  Slots of D.R never written (the last slot when the
row sums to 4095) hold malloc garbage in C, modelled as 0. -/

def decMapsGo : List (Nat × Nat) → Nat → (Nat → RansDecSymbol) → (Nat → Nat) →
    (Nat → RansDecSymbol) × (Nat → Nat)
  | [], _, syms, R => (syms, R)
  | (j, f) :: rest, x, syms, R =>
    decMapsGo rest (x + f)
      (fun k => if k = j then { start := x, freq := f } else syms k)
      (fun s => if x ≤ s ∧ s < x + f then j else R s)

def decMaps (pairs : List (Nat × Nat)) : (Nat → RansDecSymbol) × (Nat → Nat) :=
  decMapsGo pairs 0 (fun _ => zeroDecSymbol) (fun _ => 0)

/-! ## Order-0 decoding loops (lines 599-687) -/

/-- States of the four decoder lanes, the remaining payload bytes, and the
output buffer (malloc(out_sz), written in place). -/
structure DecSt where
  d0 : Nat
  d1 : Nat
  d2 : Nat
  d3 : Nat
  rest : List Nat
  buf : List Nat
  deriving DecidableEq, Repr

/-- Body of the main order-0 decode loop at offset i: mask the four states,
look the four symbols up in D.R, store them at out_buf[i..i+3], advance the
four states, then renormalise them in lane order reading from the shared
pointer. -/
def o0DecStep (syms : Nat → RansDecSymbol) (R : Nat → Nat) (i : Nat) (st : DecSt) : DecSt :=
  let c0 := R (st.d0 % 2 ^ TF_SHIFT)
  let c1 := R (st.d1 % 2 ^ TF_SHIFT)
  let c2 := R (st.d2 % 2 ^ TF_SHIFT)
  let c3 := R (st.d3 % 2 ^ TF_SHIFT)
  let buf := ((((st.buf.set i c0).set (i + 1) c1).set (i + 2) c2).set (i + 3) c3)
  let n0 := decRenorm (decAdvanceStep st.d0 (syms c0).start (syms c0).freq TF_SHIFT) st.rest
  let n1 := decRenorm (decAdvanceStep st.d1 (syms c1).start (syms c1).freq TF_SHIFT) n0.2
  let n2 := decRenorm (decAdvanceStep st.d2 (syms c2).start (syms c2).freq TF_SHIFT) n1.2
  let n3 := decRenorm (decAdvanceStep st.d3 (syms c3).start (syms c3).freq TF_SHIFT) n2.2
  { d0 := n0.1, d1 := n1.1, d2 := n2.1, d3 := n3.1, rest := n3.2, buf := buf }

/-- Main loop: for (i = 0; i < out_end; i += 4) with out_end = out_sz & ~3;
q counts the remaining iterations (out_sz / 4 at the top). -/
def o0DecGo (syms : Nat → RansDecSymbol) (R : Nat → Nat) : Nat → Nat → DecSt → DecSt
  | 0, _, st => st
  | q + 1, i, st => o0DecGo syms R q (i + 4) (o0DecStep syms R i st)

/-- Tail step on one lane k writing position pos: c = D.R[RansDecGet(...)];
RansDecAdvanceSymbol(...); out_buf[pos] = c. -/
def o0DecTailLane (syms : Nat → RansDecSymbol) (R : Nat → Nat) (k pos : Nat)
    (st : DecSt) : DecSt :=
  match k with
  | 0 =>
    let c := R (RansDecGet st.d0 TF_SHIFT)
    let n := RansDecAdvanceSymbol st.d0 st.rest (syms c) TF_SHIFT
    { st with d0 := n.1, rest := n.2, buf := st.buf.set pos c }
  | 1 =>
    let c := R (RansDecGet st.d1 TF_SHIFT)
    let n := RansDecAdvanceSymbol st.d1 st.rest (syms c) TF_SHIFT
    { st with d1 := n.1, rest := n.2, buf := st.buf.set pos c }
  | _ =>
    let c := R (RansDecGet st.d2 TF_SHIFT)
    let n := RansDecAdvanceSymbol st.d2 st.rest (syms c) TF_SHIFT
    { st with d2 := n.1, rest := n.2, buf := st.buf.set pos c }

/-- Tail switch (lines 654-687): out_sz & 3 trailing symbols decoded on
lanes 0, 1, 2 into positions out_end, out_end + 1, out_end + 2. -/
def o0DecTail (syms : Nat → RansDecSymbol) (R : Nat → Nat) (outEnd : Nat)
    (r : Nat) (st : DecSt) : DecSt :=
  match r with
  | 1 => o0DecTailLane syms R 0 outEnd st
  | 2 => o0DecTailLane syms R 1 (outEnd + 1) (o0DecTailLane syms R 0 outEnd st)
  | 3 => o0DecTailLane syms R 2 (outEnd + 2)
           (o0DecTailLane syms R 1 (outEnd + 1) (o0DecTailLane syms R 0 outEnd st))
  | _ => st

/-- Embedding of rans_uncompress_O0 (lines 540-694).  Checks, in C order:
the order byte must be 0; in_sz (the stored compressed size) must equal
in_size - 9 (unsigned 32-bit arithmetic, so frame lengths below 9 wrap and
never match); then the table is parsed (none on a failed cumulative check or
on reads past the frame), the four states are initialised from the next 16
bytes, and out_sz bytes are decoded. -/
def rans_uncompress_O0 (inp : List Nat) : Option (List Nat) :=
  if inp.getD 0 0 ≠ 0 then none
  else
    let in_sz := rdLE32 (inp.drop 1)
    let out_sz := rdLE32 (inp.drop 5)
    if in_sz ≠ (inp.length + (2 ^ 32 - 9)) % 2 ^ 32 then none
    else
      match parseRow false (inp.drop 9) with
      | none => none
      | some (pairs, rest) =>
        -- assert(x < TOTFREQ) at line 597: the parsed frequencies must sum
        -- to strictly less than TOTFREQ (compressor rows sum to 4095)
        if TOTFREQ ≤ (pairs.map Prod.snd).sum then none
        else
        let maps := decMaps pairs
        let i0 := RansDecInit rest
        let i1 := RansDecInit i0.2
        let i2 := RansDecInit i1.2
        let i3 := RansDecInit i2.2
        let st0 : DecSt := { d0 := i0.1, d1 := i1.1, d2 := i2.1, d3 := i3.1,
                             rest := i3.2, buf := List.replicate out_sz 0 }
        let st1 := o0DecGo maps.1 maps.2 (out_sz / 4) 0 st0
        let st2 := o0DecTail maps.1 maps.2 (out_sz - out_sz % 4) (out_sz % 4) st1
        some st2.buf

/-! ## Order-1 frequency model (rans_compress_O1, lines 713-762)

The statistics loop pairs each input byte with its context: position p is
counted in row in[p-1] (row 0 for p = 0).  Then the raw counts of the first
bytes of lanes 1, 2, 3 (contexts are reset to 0 at lane starts) are added to
row 0: F[0][in[k*(in_size>>2)]]++ for k = 1, 2, 3 and T[0] += 3. -/

def o1Pairs (inp : List Nat) : List (Nat × Nat) := (0 :: inp).zip inp

def o1F (inp : List Nat) : Nat → Nat → Nat := fun i j =>
  (o1Pairs inp).count (i, j) +
    if i = 0 then
      (if inp.getD (inp.length / 4) 0 = j then 1 else 0) +
      (if inp.getD (2 * (inp.length / 4)) 0 = j then 1 else 0) +
      (if inp.getD (3 * (inp.length / 4)) 0 = j then 1 else 0)
    else 0

def o1T (inp : List Nat) : Nat → Nat := fun i =>
  ((o1Pairs inp).map Prod.fst).count i + if i = 0 then 3 else 0

/-- Scaled count of the order-1 per-row normalisation loop (lines 744-755):
double p = ((double)TOTFREQ)/T[i]; if ((F[i][j] *= p) == 0) F[i][j] = 1;
(only for F[i][j] != 0), with binary64 semantics given by the model above. -/
def o1RowScaled (F : Nat → Nat) (T : Nat) : Nat → Nat := fun j =>
  if F j = 0 then 0
  else
    let v := ftruncNat (fmulNat (F j) (fdivNat TOTFREQ T))
    if v = 0 then 1 else v

/-- Value of t2 after the per-row loop and the t2++ that follows (line 758). -/
def o1RowT2 (F : Nat → Nat) (T : Nat) : Nat := sum256 (o1RowScaled F T) + 1

/-- Normalised order-1 row: adjustment of the most frequent symbol of the
row by TOTFREQ - t2 (lines 759-762), which may be negative. -/
def o1RowNorm (F : Nat → Nat) (T : Nat) : Nat → Int := fun j =>
  if j = argmaxF F then
    (o1RowScaled F T j : Int) + ((TOTFREQ : Int) - (o1RowT2 F T : Int))
  else
    (o1RowScaled F T j : Int)

/-- Outer table emission (lines 736-814): loop over contexts i with the same
run-length discipline over present contexts (T i != 0) as the per-row loop
has over present symbols; each present context contributes its index bytes
followed by its normalised row in the order-0 row format; a final 0 byte
terminates the outer table.  none when a normalised row entry is negative:
the C then calls RansEncSymbolInit with the negative int converted to a
uint32 above 2^31, whose shift loop is undefined and does not terminate. -/
def emitTable1Go (F : Nat → Nat → Nat) (T : Nat → Nat) : Nat → Nat → Nat → Option (List Nat)
  | 0, _, _ => some [0]
  | fuel + 1, i, rle =>
    if T i = 0 then emitTable1Go F T fuel (i + 1) rle
    else
      let Fn := o1RowNorm (F i) (T i)
      if (List.range 256).any (fun j => decide (Fn j < 0)) then none
      else
        let row := emitRow fun j => (Fn j).toNat
        if 0 < rle then
          match emitTable1Go F T fuel (i + 1) (rle - 1) with
          | none => none
          | some rest => some (row ++ rest)
        else if i ≠ 0 ∧ T (i - 1) ≠ 0 then
          match emitTable1Go F T fuel (i + 1) (runScan T (i + 1)) with
          | none => none
          | some rest => some (i :: runScan T (i + 1) :: (row ++ rest))
        else
          match emitTable1Go F T fuel (i + 1) 0 with
          | none => none
          | some rest => some (i :: (row ++ rest))

def emitTable1 (F : Nat → Nat → Nat) (T : Nat → Nat) : Option (List Nat) :=
  emitTable1Go F T 256 0 0

/-- Encoder records of the order-1 table setup: for each present context i,
the per-row records over the normalised row (the C initialises them inside
the same loop that stores the table). -/
def buildSyms2 (F : Nat → Nat → Nat) (T : Nat → Nat) : Nat → Option (Nat → Nat → RansEncSymbol)
  | 0 => some fun _ _ => zeroEncSymbol
  | i + 1 =>
    match buildSyms2 F T i with
    | none => none
    | some s =>
      if T i = 0 then some s
      else
        match o0Syms (fun j => (o1RowNorm (F i) (T i) j).toNat) with
        | none => none
        | some rowS => some fun a b => if a = i then rowS b else s a b

def o1Syms (F : Nat → Nat → Nat) (T : Nat → Nat) : Option (Nat → Nat → RansEncSymbol) :=
  buildSyms2 F T 256

/-! ## Order-1 encoding loops (lines 820-873) -/

/-- Operation RansEncPutSymbol(&rans_k, &ptr, &syms[a][b]) on lane k
(a = context, b = symbol). -/
def putLane2 (syms2 : Nat → Nat → RansEncSymbol) (st : EncSt) (k a b : Nat) : EncSt :=
  match k with
  | 0 => let r := RansEncPutSymbol st.r0 st.acc (syms2 a b); { st with r0 := r.1, acc := r.2 }
  | 1 => let r := RansEncPutSymbol st.r1 st.acc (syms2 a b); { st with r1 := r.1, acc := r.2 }
  | 2 => let r := RansEncPutSymbol st.r2 st.acc (syms2 a b); { st with r2 := r.1, acc := r.2 }
  | _ => let r := RansEncPutSymbol st.r3 st.acc (syms2 a b); { st with r3 := r.1, acc := r.2 }

/-- Remainder loop (lines 840-845): l3 = in[in_size-1]; for i3 from
in_size-2 down to 4*isz4-1, push syms[in[i3]][l3] on lane 3 and slide l3.
With cnt iterations remaining the current index is i3 = base + cnt where
base = 4*isz4 - 1; cnt starts at in_size - 4*isz4 = in_size % 4.  Returns the
final state and the final l3 (= in[4*isz4-1] whenever cnt reaches 0 with
in_size >= 4). -/
def o1EncRemGo (syms2 : Nat → Nat → RansEncSymbol) (inp : List Nat) (base : Nat) :
    Nat → Nat → EncSt → EncSt × Nat
  | 0, l3, st => (st, l3)
  | cnt + 1, l3, st =>
    let c3 := inp.getD (base + cnt) 0
    o1EncRemGo syms2 inp base cnt c3 (putLane2 syms2 st 3 c3 l3)

/-- Main interleaved loop (lines 847-863): for i0 from isz4-2 down to 0 push
syms[in[ik]][lk] on lane k for k = 3, 2, 1, 0 and slide the contexts.  With
cnt + 1 iterations remaining the current indices are i0 = cnt,
i1 = isz4 + cnt, i2 = 2*isz4 + cnt, i3 = 3*isz4 + cnt; the loop runs
isz4 - 1 times. -/
def o1EncMainGo (syms2 : Nat → Nat → RansEncSymbol) (inp : List Nat) (isz4 : Nat) :
    Nat → Nat → Nat → Nat → Nat → EncSt → EncSt × (Nat × Nat × Nat × Nat)
  | 0, l0, l1, l2, l3, st => (st, (l0, l1, l2, l3))
  | cnt + 1, l0, l1, l2, l3, st =>
    let c0 := inp.getD cnt 0
    let c1 := inp.getD (isz4 + cnt) 0
    let c2 := inp.getD (2 * isz4 + cnt) 0
    let c3 := inp.getD (3 * isz4 + cnt) 0
    let st1 := putLane2 syms2 st 3 c3 l3
    let st2 := putLane2 syms2 st1 2 c2 l2
    let st3 := putLane2 syms2 st2 1 c1 l1
    let st4 := putLane2 syms2 st3 0 c0 l0
    o1EncMainGo syms2 inp isz4 cnt c0 c1 c2 c3 st4

/-- Embedding of the in_size >= 4 body of rans_compress_O1 (lines 706-893),
parameterised by the count functions.  After the main loop the first symbol
of each lane is pushed against the virtual context 0 (lines 865-868), then
the four lanes are flushed 3, 2, 1, 0. -/
def o1CompressCore (F : Nat → Nat → Nat) (T : Nat → Nat) (inp : List Nat) :
    Option (List Nat) :=
  let n := inp.length
  if 2 ^ 31 ≤ ftruncNat (fmulNat n d105) then none
  else
    match emitTable1 F T with
    | none => none
    | some table =>
      match o1Syms F T with
      | none => none
      | some syms2 =>
        let isz4 := n / 4
        let rem := o1EncRemGo syms2 inp (4 * isz4 - 1) (n % 4) (inp.getD (n - 1) 0) encInitSt
        let mn := o1EncMainGo syms2 inp isz4 (isz4 - 1) (inp.getD (isz4 - 1) 0)
                    (inp.getD (2 * isz4 - 1) 0) (inp.getD (3 * isz4 - 1) 0) rem.2 rem.1
        let stA := putLane2 syms2 mn.1 3 0 mn.2.2.2.2
        let stB := putLane2 syms2 stA 2 0 mn.2.2.2.1
        let stC := putLane2 syms2 stB 1 0 mn.2.2.1
        let stD := putLane2 syms2 stC 0 0 mn.2.1
        let payload := encFlushAll stD
        let outSize := 9 + table.length + payload.length
        some ((1 :: le32 (outSize - 9)) ++ le32 n ++ table ++ payload)

/-- Embedding of rans_compress_O1: inputs shorter than 4 bytes fall back to
the order-0 compressor (lines 703-704). -/
def rans_compress_O1 (inp : List Nat) : Option (List Nat) :=
  if inp.length < 4 then rans_compress_O0 inp
  else o1CompressCore (o1F inp) (o1T inp) inp

/-! ## Order-1 table parsing (lines 920-970) -/

/-- Outer parse loop over contexts: each iteration parses one row (with the
zero-frequency-means-TOTFREQ workaround), then reads the next context index
with the same run-length discipline as the row parser; 0 terminates.  Fuel
exhaustion and reads on an empty list model reads past the frame. -/
def parseTable1Go : Nat → List Nat → Nat → Nat → List (Nat × List (Nat × Nat)) →
    Option (List (Nat × List (Nat × Nat)) × List Nat)
  | 0, _, _, _, _ => none
  | fuel + 1, l, i, rle, acc =>
    match parseRow true l with
    | none => none
    | some (pairs, l2) =>
      match l2 with
      | [] => none
      | c :: l3 =>
        if rle = 0 ∧ c = i + 1 then
          match l3 with
          | [] => none
          | rb :: l4 => parseTable1Go fuel l4 c rb (acc ++ [(i, pairs)])
        else if 0 < rle then
          parseTable1Go fuel l2 (i + 1) (rle - 1) (acc ++ [(i, pairs)])
        else if c = 0 then some (acc ++ [(i, pairs)], l3)
        else parseTable1Go fuel l3 c 0 (acc ++ [(i, pairs)])

/-- Table parse: the first byte is the initial context index i (a do-while,
so the body runs even for i = 0); each context byte is followed by that
context's row. -/
def parseTable1 (l : List Nat) : Option (List (Nat × List (Nat × Nat)) × List Nat) :=
  match l with
  | [] => none
  | i0 :: l1 => parseTable1Go (l.length + 1) l1 i0 0 []

/-- Decoder tables per context from the parsed rows (the C builds D[i] and
syms[i][j] inside the parse loops; a context listed twice in a malformed
table merges into the same D[i] in C but replaces the row here; produced
frames list every context once). -/
def decMaps2Go : List (Nat × List (Nat × Nat)) → (Nat → Nat → RansDecSymbol) →
    (Nat → Nat → Nat) → (Nat → Nat → RansDecSymbol) × (Nat → Nat → Nat)
  | [], s, R => (s, R)
  | (i, pairs) :: rest, s, R =>
    let m := decMaps pairs
    decMaps2Go rest (fun a => if a = i then m.1 else s a) (fun a => if a = i then m.2 else R a)

def decMaps2 (ctxs : List (Nat × List (Nat × Nat))) :
    (Nat → Nat → RansDecSymbol) × (Nat → Nat → Nat) :=
  decMaps2Go ctxs (fun _ _ => zeroDecSymbol) (fun _ _ => 0)

/-! ## Order-1 decoding loops (lines 974-1047) -/

/-- Body of the main order-1 decode loop at step t: lane k looks its symbol
up in D[l_k].R, stores it at out_buf[k*isz4 + t], advances using
syms[l_k][c_k], renormalises in lane order, and the decoded symbols become
the next contexts. -/
def o1DecStep (syms2 : Nat → Nat → RansDecSymbol) (R2 : Nat → Nat → Nat) (isz4 t : Nat)
    (l0 l1 l2 l3 : Nat) (st : DecSt) : DecSt × (Nat × Nat × Nat × Nat) :=
  let c0 := R2 l0 (st.d0 % 2 ^ TF_SHIFT)
  let c1 := R2 l1 (st.d1 % 2 ^ TF_SHIFT)
  let c2 := R2 l2 (st.d2 % 2 ^ TF_SHIFT)
  let c3 := R2 l3 (st.d3 % 2 ^ TF_SHIFT)
  let buf := ((((st.buf.set t c0).set (isz4 + t) c1).set (2 * isz4 + t) c2).set (3 * isz4 + t) c3)
  let n0 := decRenorm (decAdvanceStep st.d0 (syms2 l0 c0).start (syms2 l0 c0).freq TF_SHIFT) st.rest
  let n1 := decRenorm (decAdvanceStep st.d1 (syms2 l1 c1).start (syms2 l1 c1).freq TF_SHIFT) n0.2
  let n2 := decRenorm (decAdvanceStep st.d2 (syms2 l2 c2).start (syms2 l2 c2).freq TF_SHIFT) n1.2
  let n3 := decRenorm (decAdvanceStep st.d3 (syms2 l3 c3).start (syms2 l3 c3).freq TF_SHIFT) n2.2
  ({ d0 := n0.1, d1 := n1.1, d2 := n2.1, d3 := n3.1, rest := n3.2, buf := buf },
   (c0, c1, c2, c3))

/-- Main loop (lines 994-1034): isz4 steps; q counts the remaining steps and
t the current one. -/
def o1DecMainGo (syms2 : Nat → Nat → RansDecSymbol) (R2 : Nat → Nat → Nat) (isz4 : Nat) :
    Nat → Nat → Nat → Nat → Nat → Nat → DecSt → DecSt × (Nat × Nat × Nat × Nat)
  | 0, _, l0, l1, l2, l3, st => (st, (l0, l1, l2, l3))
  | q + 1, t, l0, l1, l2, l3, st =>
    let r := o1DecStep syms2 R2 isz4 t l0 l1 l2 l3 st
    o1DecMainGo syms2 R2 isz4 q (t + 1) r.2.1 r.2.2.1 r.2.2.2.1 r.2.2.2.2 r.1

/-- Remainder loop (lines 1042-1047): lane 3 decodes the remaining
out_sz - 4*isz4 positions with its context sliding. -/
def o1DecRemGo (syms2 : Nat → Nat → RansDecSymbol) (R2 : Nat → Nat → Nat) :
    Nat → Nat → Nat → DecSt → DecSt
  | 0, _, _, st => st
  | cnt + 1, pos, l3, st =>
    let c3 := R2 l3 (RansDecGet st.d3 TF_SHIFT)
    let n := RansDecAdvanceSymbol st.d3 st.rest (syms2 l3 c3) TF_SHIFT
    o1DecRemGo syms2 R2 cnt (pos + 1) c3
      { st with d3 := n.1, rest := n.2, buf := st.buf.set pos c3 }

/-- Embedding of rans_uncompress_O1 (lines 895-1055): order byte 1, the
in_sz field check, the nested table parse, four state initialisations, the
main interleaved loop, and the lane-3 remainder. -/
def rans_uncompress_O1 (inp : List Nat) : Option (List Nat) :=
  if inp.getD 0 0 ≠ 1 then none
  else
    let in_sz := rdLE32 (inp.drop 1)
    let out_sz := rdLE32 (inp.drop 5)
    if in_sz ≠ (inp.length + (2 ^ 32 - 9)) % 2 ^ 32 then none
    else
      match parseTable1 (inp.drop 9) with
      | none => none
      | some (ctxs, rest) =>
        let maps := decMaps2 ctxs
        let i0 := RansDecInit rest
        let i1 := RansDecInit i0.2
        let i2 := RansDecInit i1.2
        let i3 := RansDecInit i2.2
        let isz4 := out_sz / 4
        let st0 : DecSt := { d0 := i0.1, d1 := i1.1, d2 := i2.1, d3 := i3.1,
                             rest := i3.2, buf := List.replicate out_sz 0 }
        let mn := o1DecMainGo maps.1 maps.2 isz4 isz4 0 0 0 0 0 st0
        let st2 := o1DecRemGo maps.1 maps.2 (out_sz - 4 * isz4) (4 * isz4)
                     mn.2.2.2.2 mn.1
        some st2.buf

/-! ## Entry points (lines 1060-1076) -/

def rans_compress (inp : List Nat) (order : Nat) : Option (List Nat) :=
  if order ≠ 0 then rans_compress_O1 inp else rans_compress_O0 inp

def rans_uncompress (inp : List Nat) : Option (List Nat) :=
  if inp.length < 9 then none
  else if inp.getD 0 0 ≠ 0 then rans_uncompress_O1 inp
  else rans_uncompress_O0 inp
/-! ## Refinement of RansEncPutSymbol to RansEncPut (claim C2) -/

theorem encRenormGo_lt (xmax fuel x : Nat) (acc : List Nat) (h1 : 1 ≤ xmax)
    (h : x < 2 ^ (8 * fuel) * xmax) : (encRenormGo xmax fuel x acc).1 < xmax := by
  induction fuel generalizing x acc with
  | zero => simpa [encRenormGo] using h
  | succ n ih =>
    rw [encRenormGo]
    by_cases hc : 1 ≤ xmax ∧ xmax ≤ x
    · rw [if_pos hc]
      apply ih
      rw [Nat.shiftRight_eq_div_pow]
      have h2 : x < (2 ^ (8 * n) * xmax) * 256 := by
        calc x < 2 ^ (8 * (n + 1)) * xmax := h
        _ = (2 ^ (8 * n) * xmax) * 256 := by ring
      omega
    · rw [if_neg hc]
      simp only []
      omega

theorem encRenormGo_pos (xmax fuel x : Nat) (acc : List Nat) (h1 : 256 ≤ xmax)
    (h : 1 ≤ x) : 1 ≤ (encRenormGo xmax fuel x acc).1 := by
  induction fuel generalizing x acc with
  | zero => simpa [encRenormGo] using h
  | succ n ih =>
    rw [encRenormGo]
    by_cases hc : 1 ≤ xmax ∧ xmax ≤ x
    · rw [if_pos hc]
      apply ih
      rw [Nat.shiftRight_eq_div_pow]
      omega
    · rw [if_neg hc]
      simpa using h

theorem encShiftGo_spec (freq : Nat) (h2 : 2 ≤ freq) (h4096 : freq ≤ 2 ^ 12) :
    ∀ fuel s, 13 ≤ s + fuel → s ≤ 12 → (s = 0 ∨ 2 ^ (s - 1) < freq) →
      ∃ t, encShiftGo freq fuel s = some t ∧ 2 ^ (t - 1) < freq ∧ freq ≤ 2 ^ t ∧
        1 ≤ t ∧ t ≤ 12 := by
  intro fuel
  induction fuel with
  | zero => intro s hsf hs _; omega
  | succ n ih =>
    intro s hsf hs hinv
    rw [encShiftGo]
    rw [if_neg (by omega : ¬ 32 ≤ s)]
    by_cases hc : 2 ^ s < freq
    · rw [if_pos hc]
      have hslt : s < 12 := by
        by_contra hle
        have : s = 12 := by omega
        subst this
        omega
      apply ih (s + 1) (by omega) (by omega)
      right
      simpa using hc
    · rw [if_neg hc]
      refine ⟨s, rfl, ?_, by omega, ?_, hs⟩
      · rcases hinv with h0 | hlt
        · subst h0; omega
        · exact hlt
      · rcases hinv with h0 | _
        · subst h0; simp at hc; omega
        · by_contra hz
          have : s = 0 := by omega
          subst this
          simp at hc
          omega

theorem encShift_spec (freq : Nat) (h2 : 2 ≤ freq) (h4096 : freq ≤ 2 ^ 12) :
    ∃ t, encShift freq = some t ∧ 2 ^ (t - 1) < freq ∧ freq ≤ 2 ^ t ∧ 1 ≤ t ∧ t ≤ 12 :=
  encShiftGo_spec freq h2 h4096 34 0 (by omega) (by omega) (Or.inl rfl)

/-- Key property of the Alverson reciprocal: with
rcp = ceil(2^(s+31) / f) and 2^(s-1) < f <= 2^s, multiplying any x < 2^31 by
rcp and shifting by s + 31 recovers exactly x / f. -/
theorem recip_div (f s x : Nat) (h2 : 2 ≤ f) (hs2 : f ≤ 2 ^ s) (hx : x < 2 ^ 31) :
    (x * ((2 ^ (s + 31) + f - 1) / f)) / 2 ^ (s + 31) = x / f := by
  set A := 2 ^ (s + 31) with hA
  set rcp := (A + f - 1) / f with hrcp
  have hA1 : 1 ≤ A := Nat.one_le_two_pow
  -- f * rcp = A + e with e < f
  obtain ⟨e, he_lt, hfe⟩ : ∃ e, e < f ∧ f * rcp = A + e := by
    have hmod : f * rcp + (A + f - 1) % f = A + f - 1 := Nat.div_add_mod _ _
    have hmlt : (A + f - 1) % f < f := Nat.mod_lt _ (by omega)
    refine ⟨f - 1 - (A + f - 1) % f, by omega, by omega⟩
  have hq := Nat.div_add_mod x f
  set q := x / f with hqdef
  set r := x % f with hrdef
  have hr_lt : r < f := Nat.mod_lt _ (by omega)
  have hexp : (x * rcp) * f = q * f * A + r * A + x * e := by
    calc (x * rcp) * f = x * (f * rcp) := by ring
    _ = x * (A + e) := by rw [hfe]
    _ = (f * q + r) * (A + e) := by rw [hq]
    _ = q * f * A + r * A + (f * q + r) * e := by ring
    _ = q * f * A + r * A + x * e := by rw [hq]
  have hlow : q * A ≤ x * rcp := by
    have hstep : (q * A) * f ≤ (x * rcp) * f := by
      calc (q * A) * f = q * f * A := by ring
      _ ≤ q * f * A + r * A + x * e := by omega
      _ = (x * rcp) * f := hexp.symm
    exact Nat.le_of_mul_le_mul_right hstep (by omega)
  have hhigh : x * rcp < (q + 1) * A := by
    have hxe : x * e < A := by
      have hx1 : x * e ≤ x * f := Nat.mul_le_mul_left x (by omega)
      have hx2 : x * f < 2 ^ 31 * f := by
        have hf0 : 0 < f := by omega
        exact (Nat.mul_lt_mul_right hf0).mpr hx
      have hx3 : (2 : Nat) ^ 31 * f ≤ 2 ^ 31 * 2 ^ s := Nat.mul_le_mul_left _ hs2
      have hx4 : (2 : Nat) ^ 31 * 2 ^ s = A := by
        rw [hA]
        rw [pow_add]
        ring
      omega
    have hfa : r * A + x * e < f * A := by
      have h5 : r * A + A ≤ f * A := by
        calc r * A + A = (r + 1) * A := by ring
        _ ≤ f * A := Nat.mul_le_mul_right _ (by omega)
      omega
    have hstep : (x * rcp) * f < ((q + 1) * A) * f := by
      calc (x * rcp) * f = q * f * A + (r * A + x * e) := by omega
      _ < q * f * A + f * A := by omega
      _ = ((q + 1) * A) * f := by ring
    exact Nat.lt_of_mul_lt_mul_right hstep
  exact Nat.div_eq_of_lt_le hlow hhigh

theorem putSymbol_matches_put (start freq x : Nat) (acc : List Nat) (sym : RansEncSymbol)
    (hinit : RansEncSymbolInit start freq TF_SHIFT = some sym)
    (hf : 1 ≤ freq) (hsf : start + freq ≤ TOTFREQ)
    (hlo : RANS_BYTE_L ≤ x) (hhi : x < RANS_BYTE_L * 2 ^ 8) :
    RansEncPutSymbol x acc sym = RansEncPut x acc start freq TF_SHIFT := by
  have hfreq4096 : freq ≤ 2 ^ 12 := by
    have : TOTFREQ = 2 ^ 12 := rfl
    omega
  have hxm : ((RANS_BYTE_L >>> TF_SHIFT) <<< 8) = 2 ^ 19 := by decide
  -- facts about the renormalised state
  have hxmf256 : (256 : Nat) ≤ 2 ^ 19 * freq := by
    calc (256 : Nat) ≤ 2 ^ 19 * 1 := by omega
    _ ≤ 2 ^ 19 * freq := Nat.mul_le_mul_left _ hf
  have hxmf1 : (1 : Nat) ≤ 2 ^ 19 * freq := by omega
  have hx1 : 1 ≤ x := by
    have : (1 : Nat) ≤ RANS_BYTE_L := by decide
    omega
  have hrlt : (encRenorm (2 ^ 19 * freq) x acc).1 < 2 ^ 19 * freq := by
    apply encRenormGo_lt _ _ _ _ hxmf1
    calc x < RANS_BYTE_L * 2 ^ 8 := hhi
    _ ≤ 2 ^ (8 * 8) * (2 ^ 19 * freq) := by
      have : RANS_BYTE_L * 2 ^ 8 = 2 ^ 31 := by decide
      rw [this]
      calc (2 : Nat) ^ 31 ≤ 2 ^ (8 * 8) * 2 ^ 19 := by norm_num
      _ = 2 ^ (8 * 8) * (2 ^ 19 * 1) := by ring
      _ ≤ 2 ^ (8 * 8) * (2 ^ 19 * freq) := by
        apply Nat.mul_le_mul_left
        exact Nat.mul_le_mul_left _ hf
  have hrpos : 1 ≤ (encRenorm (2 ^ 19 * freq) x acc).1 := by
    exact encRenormGo_pos _ _ _ _ hxmf256 hx1
  have hr31 : (encRenorm (2 ^ 19 * freq) x acc).1 < 2 ^ 31 := by
    calc (encRenorm (2 ^ 19 * freq) x acc).1 < 2 ^ 19 * freq := hrlt
    _ ≤ 2 ^ 19 * 2 ^ 12 := Nat.mul_le_mul_left _ hfreq4096
    _ = 2 ^ 31 := by norm_num
  set y := (encRenorm (2 ^ 19 * freq) x acc).1 with hy
  by_cases h1 : freq < 2
  · -- freq = 1: the special-cased record
    have hfe : freq = 1 := by omega
    subst hfe
    rw [RansEncSymbolInit, if_pos (by omega)] at hinit
    rw [Option.some_inj] at hinit
    subst hinit
    simp only [RansEncPutSymbol, RansEncPut, hxm]
    refine Prod.ext ?_ rfl
    simp only []
    rw [← hy]
    have hq : (y * (2 ^ 32 - 1)) >>> 32 = y - 1 := by
      rw [Nat.shiftRight_eq_div_pow]
      omega
    rw [hq]
    have hqlt : y - 1 < 2 ^ 32 := by omega
    rw [Nat.mod_eq_of_lt hqlt]
    have hdiv1 : y / 1 = y := Nat.div_one y
    have hmod1 : y % 1 = 0 := Nat.mod_one y
    rw [hdiv1, hmod1, Nat.shiftLeft_eq]
    have hval : y + (start + 2 ^ TF_SHIFT - 1) + (y - 1) * (2 ^ TF_SHIFT - 1) =
        y * 2 ^ TF_SHIFT + 0 + start := by
      have h12 : (2 : Nat) ^ TF_SHIFT = 4096 := by decide
      rw [h12]
      have hexpand : (y - 1) * 4095 = y * 4095 - 1 * 4095 := Nat.sub_mul y 1 4095
      omega
    rw [hval]
  · -- freq >= 2: the reciprocal record
    obtain ⟨t, hshift, ht1, ht2, ht1le, ht12⟩ := encShift_spec freq (by omega) hfreq4096
    rw [RansEncSymbolInit, if_neg h1] at hinit
    rw [hshift] at hinit
    simp only [Option.some_inj] at hinit
    subst hinit
    simp only [RansEncPutSymbol, RansEncPut, hxm]
    refine Prod.ext ?_ rfl
    simp only []
    rw [← hy]
    have hshift31 : t - 1 + 32 = t + 31 := by omega
    have hq : (y * ((2 ^ (t + 31) + freq - 1) / freq)) >>> (t - 1 + 32) = y / freq := by
      rw [hshift31, Nat.shiftRight_eq_div_pow]
      exact recip_div freq t y (by omega) ht2 hr31
    rw [hq]
    have hqlt : y / freq < 2 ^ 32 := by
      have : y / freq ≤ y := Nat.div_le_self _ _
      omega
    rw [Nat.mod_eq_of_lt hqlt]
    set d := y / freq with hd
    have hdm : freq * d + y % freq = y := Nat.div_add_mod y freq
    have hdist : d * (2 ^ TF_SHIFT - freq) + d * freq = d * 2 ^ TF_SHIFT := by
      rw [← Nat.mul_add]
      congr 1
      have h12 : (2 : Nat) ^ TF_SHIFT = 4096 := by decide
      omega
    rw [Nat.shiftLeft_eq]
    have h12 : (2 : Nat) ^ TF_SHIFT = 4096 := by decide
    have hcomm : d * freq = freq * d := Nat.mul_comm _ _
    omega

/-- Claim C2: for every start and freq with freq >= 1 and start + freq <= 4096
and every coder state in the normalized interval [2^23, 2^23 * 2^8), encoding
one symbol with RansEncPutSymbol on a record built by
RansEncSymbolInit(start, freq, 12) produces exactly the same state and the
same emitted bytes as the textbook step RansEncPut(start, freq, 12); in
particular the freq = 1 record carries the special-cased values
rcp_freq = 0xFFFFFFFF, rcp_shift = 0 (before the final += 32 of the shared
epilogue), bias = start + 2^12 - 1, and the equality holds for it. -/
theorem claim_C2 (start freq x : Nat) (acc : List Nat) (sym : RansEncSymbol)
    (hinit : RansEncSymbolInit start freq TF_SHIFT = some sym)
    (hf : 1 ≤ freq) (hsf : start + freq ≤ TOTFREQ)
    (hlo : RANS_BYTE_L ≤ x) (hhi : x < RANS_BYTE_L * 2 ^ 8) :
    RansEncPutSymbol x acc sym = RansEncPut x acc start freq TF_SHIFT ∧
      (freq = 1 → sym.rcp_freq = 2 ^ 32 - 1 ∧ sym.rcp_shift = 0 + 32 ∧
        sym.bias = start + 2 ^ 12 - 1) := by
  refine ⟨putSymbol_matches_put start freq x acc sym hinit hf hsf hlo hhi, ?_⟩
  intro h1
  subst h1
  rw [RansEncSymbolInit, if_pos (by omega)] at hinit
  rw [Option.some_inj] at hinit
  subst hinit
  exact ⟨rfl, rfl, rfl⟩

theorem claim_C2_witness :
    RansEncPutSymbol (2 ^ 23) [] ((RansEncSymbolInit 10 1 TF_SHIFT).getD zeroEncSymbol) =
      RansEncPut (2 ^ 23) [] 10 1 TF_SHIFT :=
  (claim_C2 10 1 (2 ^ 23) []
    ((RansEncSymbolInit 10 1 TF_SHIFT).getD zeroEncSymbol)
    (by decide) (by decide) (by decide) (by decide) (by decide)).1

/-! ## Normalisation facts (claims C3, C4) -/

theorem argmaxF_lt (F : Nat → Nat) : argmaxF F < 256 := by
  have key : ∀ (l : List Nat) (p : Nat × Nat),
      (l.foldl (argmaxStep F) p).2 = p.2 ∨ (l.foldl (argmaxStep F) p).2 ∈ l := by
    intro l
    induction l with
    | nil => intro p; exact Or.inl rfl
    | cons a t ih =>
      intro p
      rw [List.foldl_cons]
      rcases ih (argmaxStep F p a) with h | h
      · rw [h]
        unfold argmaxStep
        by_cases hc : p.1 < F a
        · rw [if_pos hc]; exact Or.inr (List.mem_cons_self a t)
        · rw [if_neg hc]; exact Or.inl rfl
      · exact Or.inr (List.mem_cons_of_mem a h)
  unfold argmaxF
  rcases key (List.range 256) (0, 0) with h | h
  · rw [h]; omega
  · exact List.mem_range.mp h

theorem mapsum_update (f : Nat → Int) (c : Int) (M n : Nat) (hM : M < n) :
    ((List.range n).map fun j => if j = M then f j + c else f j).sum =
      ((List.range n).map f).sum + c := by
  induction n with
  | zero => omega
  | succ n ih =>
    rw [List.range_succ, List.map_append, List.map_append, List.sum_append, List.sum_append]
    by_cases h : M = n
    · subst h
      have hpre : (List.range M).map (fun j => if j = M then f j + c else f j) =
          (List.range M).map f := by
        apply List.map_congr_left
        intro a ha
        rw [if_neg (by have := List.mem_range.mp ha; omega)]
      rw [hpre]
      simp only [List.map_cons, List.map_nil, List.sum_cons, List.sum_nil, if_true]
      ring
    · have hlt : M < n := by omega
      rw [ih hlt]
      simp only [List.map_cons, List.map_nil, List.sum_cons, List.sum_nil,
        if_neg (by omega : ¬ n = M)]
      ring

theorem listsum_natCast (l : List Nat) :
    (l.map (Nat.cast : Nat → Int)).sum = (l.sum : Int) := by
  induction l with
  | nil => rfl
  | cons a t ih =>
    rw [List.map_cons, List.sum_cons, List.sum_cons, ih]
    push_cast
    ring

/-- Sum of the adjusted order-0 frequencies over the whole alphabet, as
integers: always TOTFREQ - 1 = 4095 (the fsum++ before the adjustment makes
the target one less than TOTFREQ). -/
theorem o0Norm_sum (F : Nat → Nat) (n : Nat) :
    ((List.range 256).map (o0Norm F n)).sum = (TOTFREQ : Int) - 1 := by
  have hM := argmaxF_lt F
  have hfun : o0Norm F n = fun j =>
      if j = argmaxF F then ((o0Scaled F n j : Int)) + ((TOTFREQ : Int) - (o0Fsum F n : Int))
      else (o0Scaled F n j : Int) := rfl
  rw [hfun, mapsum_update (fun j => (o0Scaled F n j : Int)) _ _ _ hM]
  have hcast : ((List.range 256).map fun j => ((o0Scaled F n j : Int))).sum =
      ((sum256 (o0Scaled F n) : Nat) : Int) := by
    unfold sum256
    rw [← listsum_natCast, List.map_map]
    rfl
  rw [hcast]
  unfold o0Fsum
  push_cast
  ring

theorem o0Scaled_pos (F : Nat → Nat) (n j : Nat) (h : F j ≠ 0) :
    1 ≤ o0Scaled F n j := by
  unfold o0Scaled
  rw [if_neg h]
  split
  · omega
  · omega

/-- Rows of the order-1 normalisation likewise sum to TOTFREQ - 1, whatever
the double-based scaled values are. -/
theorem o1RowNorm_sum (F : Nat → Nat) (T : Nat) :
    ((List.range 256).map (o1RowNorm F T)).sum = (TOTFREQ : Int) - 1 := by
  have hM := argmaxF_lt F
  have hfun : o1RowNorm F T = fun j =>
      if j = argmaxF F then ((o1RowScaled F T j : Int)) + ((TOTFREQ : Int) - (o1RowT2 F T : Int))
      else (o1RowScaled F T j : Int) := rfl
  rw [hfun, mapsum_update (fun j => (o1RowScaled F T j : Int)) _ _ _ hM]
  have hcast : ((List.range 256).map fun j => ((o1RowScaled F T j : Int))).sum =
      ((sum256 (o1RowScaled F T) : Nat) : Int) := by
    unfold sum256
    rw [← listsum_natCast, List.map_map]
    rfl
  rw [hcast]
  unfold o1RowT2
  push_cast
  ring

theorem o1RowScaled_pos (F : Nat → Nat) (T j : Nat) (h : F j ≠ 0) :
    1 ≤ o1RowScaled F T j := by
  unfold o1RowScaled
  rw [if_neg h]
  simp only []
  split
  · omega
  · omega

/-! ## Concrete inputs used to settle the claims -/

/-- Counts of the adversarial distribution: 64 symbols occurring 93 times
and 192 symbols occurring once, 6144 bytes in total. -/
def denseCnt : Nat → Nat := fun j => if j < 64 then 93 else if j < 256 then 1 else 0

/-- Concrete input realising denseCnt. -/
def denseInput : List Nat :=
  (List.range 256).flatMap fun j => List.replicate (denseCnt j) j

theorem count_flatMap_replicate (g : Nat → Nat) (n x : Nat) :
    ((List.range n).flatMap fun j => List.replicate (g j) j).count x =
      if x < n then g x else 0 := by
  induction n with
  | zero => simp
  | succ n ih =>
    rw [List.range_succ, List.flatMap_append, List.count_append, ih]
    simp only [List.flatMap_cons, List.flatMap_nil, List.append_nil,
      List.count_replicate, beq_iff_eq]
    by_cases h : x = n
    · subst h
      rw [if_neg (lt_irrefl x), if_pos rfl, if_pos (Nat.lt_succ_self x)]
      omega
    · by_cases h2 : x < n
      · rw [if_pos h2, if_neg (show ¬ n = x from fun hh => h hh.symm), if_pos (by omega)]
        omega
      · rw [if_neg h2, if_neg (show ¬ n = x from fun hh => h hh.symm), if_neg (by omega)]

theorem countF_denseInput : countF denseInput = denseCnt := by
  funext x
  unfold countF denseInput
  rw [count_flatMap_replicate]
  unfold denseCnt
  by_cases h : x < 256
  · rw [if_pos h]
  · rw [if_neg h, if_neg (by omega), if_neg (by omega)]

theorem denseInput_length : denseInput.length = 6144 := by
  unfold denseInput
  rw [List.length_flatMap]
  decide

/-- Claim C4, counterexample: the claim asserts that after order-0
normalisation every observed symbol keeps frequency at least 1 and that
assert(F[M] > 0) always holds for N >= 1.  At the 6144-byte input with 64
symbols of count 93 and 192 symbols of count 1, the most frequent symbol
(M = 0, raw count 93) is adjusted to -3: the error branch is reachable. -/
theorem claim_C4_counterexample :
    denseInput.length = 6144 ∧
    countF denseInput (argmaxF (countF denseInput)) = 93 ∧
    o0Norm (countF denseInput) 6144 (argmaxF (countF denseInput)) = -3 := by
  refine ⟨denseInput_length, ?_, ?_⟩
  · rw [countF_denseInput]
    decide
  · rw [countF_denseInput]
    decide

/-- Claim C4 (amended): after the order-0 scaling pass every symbol whose raw
count is at least 1 has scaled frequency at least 1, and every such symbol
other than the adjusted argmax M keeps frequency at least 1 after the final
adjustment; the assertion F[M] > 0 itself is not guaranteed (the error branch
is reachable, see the counterexample). -/
theorem claim_C4_amended (inp : List Nat) (_hn : 1 ≤ inp.length) :
    (∀ j, countF inp j ≠ 0 → 1 ≤ o0Scaled (countF inp) inp.length j) ∧
    (∀ j, j ≠ argmaxF (countF inp) → countF inp j ≠ 0 →
      1 ≤ o0Norm (countF inp) inp.length j) := by
  refine ⟨fun j h => o0Scaled_pos _ _ _ h, fun j hj h => ?_⟩
  unfold o0Norm
  rw [if_neg hj]
  have := o0Scaled_pos (countF inp) inp.length j h
  omega

theorem claim_C4_witness :
    1 ≤ o0Scaled (countF [65, 66, 65]) 3 66 ∧
      1 ≤ o0Norm (countF [65, 66, 65]) 3 66 :=
  ⟨(claim_C4_amended [65, 66, 65] (by decide)).1 66 (by decide),
   (claim_C4_amended [65, 66, 65] (by decide)).2 66 (by decide) (by decide)⟩

/-- Claim C1: round-trip cannot hold for every byte sequence: at denseInput
the compressor's own assert(F[M] > 0) fires (the normalised frequency of the
most frequent symbol is -3, see claim_C4_counterexample), so order-0
compression aborts (returns none) and no frame decodes back to the input.
(Compression of the empty input is likewise undefined: see claim C5.) -/
theorem claim_C1_bug : rans_compress denseInput 0 = none := by
  have h0 : rans_compress denseInput 0 = rans_compress_O0 denseInput := by
    unfold rans_compress
    rw [if_neg (by omega : ¬ (0 : Nat) ≠ 0)]
  rw [h0]
  unfold rans_compress_O0
  rw [countF_denseInput]
  unfold o0CompressCore
  rw [denseInput_length]
  rw [if_neg (by decide : ¬ 2 ^ 31 ≤ ftruncNat (fmulNat 6144 d105))]
  rw [if_neg (by omega : ¬ (6144 : Nat) = 0)]
  rw [if_pos (by decide : o0Norm denseCnt 6144 (argmaxF denseCnt) ≤ 0)]

/-- Claim C5, counterexample: compressing the empty input is not well-defined
for either order: no minimal frame is produced, because the order-0 path
divides by in_size = 0 when computing the scaling factor tr (order-1 falls
back to order-0 for every input shorter than 4 bytes, including this one). -/
theorem claim_C5_counterexample :
    rans_compress [] 0 = none ∧ rans_compress [] 1 = none := by decide

/-- Claim C5 (amended): order-1 compression of any input shorter than 4
bytes, the empty input included, falls back to the order-0 compressor; but
compressing the empty input is not well-defined: the order-0 compressor
divides by the input size, which is zero, before any frame is assembled
(modelled as none). -/
theorem claim_C5_amended :
    (∀ inp : List Nat, inp.length < 4 → rans_compress_O1 inp = rans_compress_O0 inp) ∧
      rans_compress_O0 [] = none := by
  constructor
  · intro inp h
    unfold rans_compress_O1
    rw [if_pos h]
  · decide

theorem claim_C5_witness : rans_compress_O1 [7, 7] = rans_compress_O0 [7, 7] :=
  claim_C5_amended.1 [7, 7] (by decide)

/-- Claim C3, counterexample: for the single-byte input [0x41] (N = 1) the
normalised frequencies sum over the whole alphabet to 4095, not
TOTFREQ = 4096 (the fsum++ before the adjustment deliberately targets
TOTFREQ - 1; the order-0 decoder's assert(x < TOTFREQ) confirms it). -/
theorem claim_C3_counterexample :
    ¬ ((List.range 256).map (o0Norm (countF [65]) 1)).sum = (TOTFREQ : Int) := by
  rw [o0Norm_sum]
  decide

/-- Input realising an order-1 context row with counts 6 and 5 (row of
context 1: six transitions to 2, five to 3, T = 11). -/
def inputB22 : List Nat := [1, 2, 1, 2, 1, 2, 1, 2, 1, 2, 1, 2, 1, 3, 1, 3, 1, 3, 1, 3, 1, 3]

/-- Claim C7, counterexample: the order-1 compressor does not use the
integer formula tr = (2^12 << 31)/N + (1 << 30)/N per row; it scales with
the C double p = 4096.0/T[i].  For the context-1 row of inputB22 (T = 11,
count 5 at symbol 3, which is not the row argmax) the double-based
normalisation yields 1861 while the claimed tr formula yields 1862. -/
theorem claim_C7_counterexample :
    o1T inputB22 1 = 11 ∧ o1F inputB22 1 3 = 5 ∧ 3 ≠ argmaxF (o1F inputB22 1) ∧
    o1RowNorm (o1F inputB22 1) (o1T inputB22 1) 3 = 1861 ∧
    max 1 ((o1F inputB22 1 3 * trVal (o1T inputB22 1)) >>> 31) = 1862 := by
  refine ⟨by decide, by decide, by decide, by decide, by decide⟩

/-! ## Round trip of the table codec: helper facts -/

theorem runScan_facts (F : Nat → Nat) (k : Nat) :
    runScan F k ≤ 256 - k ∧ ∀ t, t < runScan F k → F (k + t) ≠ 0 := by
  unfold runScan
  set p : Nat → Bool := fun t => F (k + t) != 0 with hp
  set tw := (List.range (256 - k)).takeWhile p with htw
  have hpre : tw <+: List.range (256 - k) := List.takeWhile_prefix p
  have heq : tw = (List.range (256 - k)).take tw.length := List.prefix_iff_eq_take.mp hpre
  have hlen : tw.length = min tw.length (256 - k) := by
    conv_lhs => rw [heq]
    rw [List.length_take, List.length_range]
  have hle : tw.length ≤ 256 - k := by omega
  refine ⟨hle, fun t ht => ?_⟩
  have htw_range : tw = List.range tw.length := by
    have hmin : tw.length ⊓ (256 - k) = tw.length := min_eq_left hle
    conv_lhs => rw [heq, List.take_range]
    rw [hmin]
  have hmem : t ∈ tw := by
    rw [htw_range]
    exact List.mem_range.mpr ht
  have := List.mem_takeWhile_imp hmem
  rw [hp] at this
  simpa using this

theorem freqBytes_ne_nil (f : Nat) : ∃ c t, freqBytes f = c :: t := by
  unfold freqBytes
  split
  · exact ⟨f, [], rfl⟩
  · exact ⟨128 + (f >>> 8), [f % 256], rfl⟩

/-- Present symbols from index j on (fuel counts remaining indices), with
their frequencies, in index order: the reference value both the emitter and
the parser produce. -/
def pairsFromGo (F : Nat → Nat) : Nat → Nat → List (Nat × Nat)
  | 0, _ => []
  | fuel + 1, j => (if F j = 0 then [] else [(j, F j)]) ++ pairsFromGo F fuel (j + 1)

def presentPairs (F : Nat → Nat) : List (Nat × Nat) := pairsFromGo F 256 0

theorem pairsFromGo_skip (F : Nat → Nat) :
    ∀ d fuel j, (∀ k, j ≤ k → k < j + d → F k = 0) → d ≤ fuel →
      pairsFromGo F fuel j = pairsFromGo F (fuel - d) (j + d) := by
  intro d
  induction d with
  | zero => intro fuel j _ _; simp
  | succ n ih =>
    intro fuel j habs hle
    match fuel, hle with
    | fuel + 1, _ =>
      rw [pairsFromGo]
      rw [if_pos (habs j (le_refl j) (by omega)), List.nil_append]
      rw [ih fuel (j + 1) (fun k hk1 hk2 => habs k (by omega) (by omega)) (by omega)]
      congr 1
      all_goals omega

theorem pairsFromGo_absent (F : Nat → Nat) :
    ∀ fuel j, (∀ k, j ≤ k → k < j + fuel → F k = 0) → pairsFromGo F fuel j = [] := by
  intro fuel j habs
  rw [pairsFromGo_skip F fuel fuel j habs (le_refl _)]
  simp [pairsFromGo]

theorem emitRowGo_skip (F : Nat → Nat) :
    ∀ d fuel j rle, (∀ k, j ≤ k → k < j + d → F k = 0) → d ≤ fuel →
      emitRowGo F fuel j rle = emitRowGo F (fuel - d) (j + d) rle := by
  intro d
  induction d with
  | zero => intro fuel j rle _ _; simp
  | succ n ih =>
    intro fuel j rle habs hle
    match fuel, hle with
    | fuel + 1, _ =>
      rw [emitRowGo]
      rw [if_pos (habs j (le_refl j) (by omega))]
      rw [ih fuel (j + 1) rle (fun k hk1 hk2 => habs k (by omega) (by omega)) (by omega)]
      congr 1
      all_goals omega

theorem emitRowGo_absent (F : Nat → Nat) :
    ∀ fuel j rle, (∀ k, j ≤ k → k < j + fuel → F k = 0) → emitRowGo F fuel j rle = [0] := by
  intro fuel j rle habs
  rw [emitRowGo_skip F fuel fuel j rle habs (le_refl _)]
  simp [emitRowGo]

theorem readFreq_freqBytes (f : Nat) (rest : List Nat) (hf : f < 32768) :
    readFreq (freqBytes f ++ rest) = some (f, rest) := by
  unfold freqBytes
  by_cases h : f < 128
  · rw [if_pos h]
    show readFreq (f :: rest) = some (f, rest)
    simp only [readFreq]
    rw [if_neg (by omega)]
  · rw [if_neg h]
    show readFreq ((128 + (f >>> 8)) :: f % 256 :: rest) = some (f, rest)
    simp only [readFreq]
    rw [if_pos (by omega)]
    have heq : (128 + (f >>> 8) - 128) * 256 + f % 256 = f := by
      rw [Nat.shiftRight_eq_div_pow]
      omega
    rw [heq]

theorem parseRowGo_emit (hack : Bool) (F : Nat → Nat) (hb : ∀ k, F k ≤ 4095) :
    ∀ pfuel j rle x acc rest,
      j ≤ 255 → F j ≠ 0 →
      (∀ t, 1 ≤ t → t ≤ rle → j + t ≤ 255 ∧ F (j + t) ≠ 0) →
      x + ((pairsFromGo F (256 - j) j).map Prod.snd).sum ≤ TOTFREQ →
      (pairsFromGo F (256 - j) j).length + 1 ≤ pfuel →
      parseRowGo hack pfuel
          (freqBytes (F j) ++ (emitRowGo F (255 - j) (j + 1) rle ++ rest)) j rle x acc
        = some (acc ++ pairsFromGo F (256 - j) j, rest) := by
  intro pfuel
  induction pfuel with
  | zero => intro j rle x acc rest hj hFj hinv hsum hpf; omega
  | succ pf ih =>
    intro j rle x acc rest hj hFj hinv hsum hpf
    have hsplit : pairsFromGo F (256 - j) j = (j, F j) :: pairsFromGo F (255 - j) (j + 1) := by
      have h1 : 256 - j = (255 - j) + 1 := by omega
      rw [h1, pairsFromGo, if_neg hFj]
      rfl
    have hsum2 : x + (F j + ((pairsFromGo F (255 - j) (j + 1)).map Prod.snd).sum) ≤ TOTFREQ := by
      rw [hsplit] at hsum
      simpa using hsum
    have hlen2 : (pairsFromGo F (255 - j) (j + 1)).length + 1 ≤ pf := by
      rw [hsplit] at hpf
      simp at hpf
      omega
    simp only [parseRowGo]
    rw [readFreq_freqBytes (F j) _ (by have := hb j; omega)]
    simp only []
    have hfval : (if hack ∧ F j = 0 then TOTFREQ else F j) = F j :=
      if_neg (fun h => hFj h.2)
    rw [hfval]
    rw [if_neg (by omega : ¬ TOTFREQ < x + F j)]
    by_cases hrle : 0 < rle
    · -- pending run: the emitter continues with the frequency of j + 1 alone
      have hj1 := hinv 1 (by omega) (by omega)
      have hE : emitRowGo F (255 - j) (j + 1) rle
          = freqBytes (F (j + 1)) ++ emitRowGo F (254 - j) (j + 1 + 1) (rle - 1) := by
        have h255 : 255 - j = (254 - j) + 1 := by omega
        rw [h255, emitRowGo]
        rw [if_neg hj1.2, if_pos hrle]
      rw [show (254 - j) = (255 - (j + 1)) from by omega] at hE
      rw [hE]
      obtain ⟨c, t, hct⟩ := freqBytes_ne_nil (F (j + 1))
      rw [hct]
      simp only [List.cons_append, List.append_assoc]
      rw [if_neg (by rintro ⟨h0, _⟩; omega : ¬ (rle = 0 ∧ c = j + 1))]
      rw [if_pos hrle]
      have harg : c :: (t ++ (emitRowGo F (255 - (j + 1)) (j + 1 + 1) (rle - 1) ++ rest))
          = freqBytes (F (j + 1)) ++ (emitRowGo F (255 - (j + 1)) (j + 1 + 1) (rle - 1) ++ rest) := by
        rw [hct]
        simp [List.cons_append]
      rw [harg]
      have hres := ih (j + 1) (rle - 1) (x + F j) (acc ++ [(j, F j)]) rest
        (by omega) hj1.2
        (fun s hs1 hs2 => by
          have := hinv (s + 1) (by omega) (by omega)
          constructor
          · omega
          · have hx : j + 1 + s = j + (s + 1) := by omega
            rw [hx]
            exact this.2)
        (by
          have hfix : 256 - (j + 1) = 255 - j := by omega
          rw [hfix]
          omega)
        (by
          have hfix : 256 - (j + 1) = 255 - j := by omega
          rw [hfix]
          omega)
      rw [hres, hsplit, show (256 - (j + 1)) = (255 - j) from by omega]
      simp
    · -- no pending run
      have hrle0 : rle = 0 := by omega
      subst hrle0
      by_cases hp : ∃ p, j < p ∧ p ≤ 255 ∧ F p ≠ 0
      · -- a later present symbol exists; take the least one
        obtain ⟨p, hjp, hp255, hFp, hmin⟩ :
            ∃ p, j < p ∧ p ≤ 255 ∧ F p ≠ 0 ∧ ∀ k, j < k → k < p → F k = 0 := by
          have hfs := Nat.find_spec hp
          refine ⟨Nat.find hp, hfs.1, hfs.2.1, hfs.2.2, ?_⟩
          intro k h1 h2
          by_contra hcon
          exact Nat.find_min hp h2 ⟨h1, by omega, hcon⟩
        have hskip : ∀ k, j + 1 ≤ k → k < (j + 1) + (p - (j + 1)) → F k = 0 := by
          intro k h1 h2
          exact hmin k (by omega) (by omega)
        have hE : emitRowGo F (255 - j) (j + 1) 0 = emitRowGo F (256 - p) p 0 := by
          rw [emitRowGo_skip F (p - (j + 1)) (255 - j) (j + 1) 0 hskip (by omega)]
          rw [show 255 - j - (p - (j + 1)) = 256 - p from by omega,
            show j + 1 + (p - (j + 1)) = p from by omega]
        have hPairs : pairsFromGo F (255 - j) (j + 1) = pairsFromGo F (256 - p) p := by
          rw [pairsFromGo_skip F (p - (j + 1)) (255 - j) (j + 1) hskip (by omega)]
          rw [show 255 - j - (p - (j + 1)) = 256 - p from by omega,
            show j + 1 + (p - (j + 1)) = p from by omega]
        have h256p : 256 - p = (255 - p) + 1 := by omega
        rw [hPairs] at hsum2 hlen2
        by_cases hpj : p = j + 1
        · -- the predecessor of p is present: run-length byte emitted and parsed
          obtain ⟨hrs1, hrs2⟩ := runScan_facts F (p + 1)
          have hE2 : emitRowGo F (256 - p) p 0
              = p :: runScan F (p + 1) ::
                  (freqBytes (F p) ++ emitRowGo F (255 - p) (p + 1) (runScan F (p + 1))) := by
            rw [h256p, emitRowGo]
            rw [if_neg hFp, if_neg (by omega : ¬ (0 : Nat) < 0)]
            rw [if_pos ⟨by omega, by rw [show p - 1 = j from by omega]; exact hFj⟩]
          rw [hE, hE2]
          simp only [List.cons_append, List.append_assoc]
          rw [if_pos ⟨trivial, hpj⟩]
          have hres := ih p (runScan F (p + 1)) (x + F j) (acc ++ [(j, F j)]) rest
            hp255 hFp
            (fun s hs1 hs2 => by
              constructor
              · omega
              · rw [show p + s = p + 1 + (s - 1) from by omega]
                exact hrs2 (s - 1) (by omega))
            (by omega) (by omega)
          rw [hres, hsplit, hPairs]
          simp
        · -- the predecessor of p is absent: plain symbol byte
          have hE2 : emitRowGo F (256 - p) p 0
              = p :: (freqBytes (F p) ++ emitRowGo F (255 - p) (p + 1) 0) := by
            rw [h256p, emitRowGo]
            rw [if_neg hFp, if_neg (by omega : ¬ (0 : Nat) < 0)]
            rw [if_neg (by
              rintro ⟨_, hq⟩
              exact hq (hmin (p - 1) (by omega) (by omega)))]
          rw [hE, hE2]
          simp only [List.cons_append, List.append_assoc]
          rw [if_neg (by rintro ⟨_, hq⟩; exact hpj hq : ¬ (True ∧ p = j + 1))]
          rw [if_neg (by omega : ¬ (0 : Nat) < 0)]
          rw [if_neg (by omega : ¬ p = 0)]
          have hres := ih p 0 (x + F j) (acc ++ [(j, F j)]) rest
            hp255 hFp (fun s hs1 hs2 => by omega) (by omega) (by omega)
          rw [hres, hsplit, hPairs]
          simp
      · -- no further present symbol: the emitter emits the terminator
        have habs : ∀ k, j + 1 ≤ k → k < j + 1 + (255 - j) → F k = 0 := by
          intro k h1 h2
          by_contra hcon
          exact hp ⟨k, by omega, by omega, hcon⟩
        rw [emitRowGo_absent F (255 - j) (j + 1) 0 habs]
        simp only [List.cons_append, List.nil_append]
        rw [if_neg (by rintro ⟨_, h0⟩; omega : ¬ (True ∧ (0 : Nat) = j + 1))]
        rw [if_neg (by omega : ¬ (0 : Nat) < 0)]
        rw [if_pos trivial]
        rw [hsplit, pairsFromGo_absent F (255 - j) (j + 1) habs]

theorem freqBytes_length_pos (f : Nat) : 1 ≤ (freqBytes f).length := by
  unfold freqBytes
  split <;> simp

theorem pairs_length_le_emit (F : Nat → Nat) :
    ∀ fuel j rle, (pairsFromGo F fuel j).length ≤ (emitRowGo F fuel j rle).length := by
  intro fuel
  induction fuel with
  | zero => intro j rle; simp [pairsFromGo, emitRowGo]
  | succ f ih =>
    intro j rle
    rw [pairsFromGo, emitRowGo]
    by_cases hF : F j = 0
    · rw [if_pos hF, if_pos hF]
      simpa using ih (j + 1) rle
    · rw [if_neg hF, if_neg hF]
      have h1 := freqBytes_length_pos (F j)
      by_cases hr : 0 < rle
      · rw [if_pos hr]
        have h2 := ih (j + 1) (rle - 1)
        simp only [List.length_append, List.length_cons, List.singleton_append]
        omega
      · rw [if_neg hr]
        by_cases hpred : j ≠ 0 ∧ F (j - 1) ≠ 0
        · rw [if_pos hpred]
          have h2 := ih (j + 1) (runScan F (j + 1))
          simp only [List.length_append, List.length_cons, List.singleton_append]
          omega
        · rw [if_neg hpred]
          have h2 := ih (j + 1) 0
          simp only [List.length_append, List.length_cons, List.singleton_append]
          omega

theorem parseRow_emitRow (hack : Bool) (F : Nat → Nat) (hb : ∀ k, F k ≤ 4095)
    (hex : ∃ j, j ≤ 255 ∧ F j ≠ 0)
    (hsum : ((presentPairs F).map Prod.snd).sum ≤ TOTFREQ) (rest : List Nat) :
    parseRow hack (emitRow F ++ rest) = some (presentPairs F, rest) := by
  obtain ⟨q, hq255, hFq, hqmin⟩ :
      ∃ q, q ≤ 255 ∧ F q ≠ 0 ∧ ∀ k, k < q → F k = 0 := by
    have hfs := Nat.find_spec hex
    refine ⟨Nat.find hex, hfs.1, hfs.2, ?_⟩
    intro k h2
    by_contra hcon
    exact Nat.find_min hex h2 ⟨by omega, hcon⟩
  have hskip : ∀ k, 0 ≤ k → k < 0 + q → F k = 0 := fun k _ h2 => hqmin k (by omega)
  have h256q : 256 - q = (255 - q) + 1 := by omega
  have hE2 : emitRowGo F (256 - q) q 0
      = q :: (freqBytes (F q) ++ emitRowGo F (255 - q) (q + 1) 0) := by
    rw [h256q, emitRowGo]
    rw [if_neg hFq, if_neg (by omega : ¬ (0 : Nat) < 0)]
    rw [if_neg (by
      rintro ⟨hq0, hq1⟩
      exact hq1 (hqmin (q - 1) (by omega)))]
  have hfull : emitRow F ++ rest
      = q :: (freqBytes (F q) ++ (emitRowGo F (255 - q) (q + 1) 0 ++ rest)) := by
    show emitRowGo F 256 0 0 ++ rest = _
    rw [emitRowGo_skip F q 256 0 0 hskip (by omega), Nat.zero_add, hE2]
    simp only [List.cons_append, List.append_assoc]
  have hPairs : presentPairs F = pairsFromGo F (256 - q) q := by
    show pairsFromGo F 256 0 = _
    rw [pairsFromGo_skip F q 256 0 hskip (by omega), Nat.zero_add]
  have hlenp : (presentPairs F).length ≤ (emitRow F).length :=
    pairs_length_le_emit F 256 0 0
  have hlenfull := congrArg List.length hfull
  simp only [List.length_append, List.length_cons] at hlenfull
  rw [hfull]
  simp only [parseRow]
  rw [hPairs] at hsum
  have hres := parseRowGo_emit hack F hb
    ((q :: (freqBytes (F q) ++ (emitRowGo F (255 - q) (q + 1) 0 ++ rest))).length + 1)
    q 0 0 [] rest hq255 hFq
    (fun t ht1 ht2 => by omega)
    (by omega)
    (by
      have hlp := congrArg List.length hPairs
      simp only [List.length_cons, List.length_append]
      omega)
  rw [hres, hPairs]
  simp

/-! ## Claims C10 and C6: parser workaround and decoder error handling -/

/-- Claim C10: whenever a stored frequency byte of an order-1 row decodes to
F = 0, the order-1 table parser (parseRowGo with the workaround enabled)
behaves exactly as if the stored frequency had been TOTFREQ = 2^12: the
substitution happens before the cumulative-frequency check and before the
(j, F) pair is accepted into the decoder-table construction. -/
theorem claim_C10 (fuel : Nat) (l l2 : List Nat) (j rle x : Nat) (acc : List (Nat × Nat))
    (h : readFreq l = some (0, l2)) :
    parseRowGo true (fuel + 1) l j rle x acc
      = parseRowGo true (fuel + 1) (freqBytes TOTFREQ ++ l2) j rle x acc := by
  rw [parseRowGo]
  conv_rhs => rw [parseRowGo]
  rw [h, readFreq_freqBytes TOTFREQ l2 (by decide)]
  simp [TOTFREQ]

theorem claim_C10_witness :
    readFreq [0, 0] = some (0, [0]) ∧
      parseRowGo true 3 [0, 0] 5 0 0 [] = parseRowGo true 3 (freqBytes TOTFREQ ++ [0]) 5 0 0 [] :=
  ⟨rfl, claim_C10 2 [0, 0] [0] 5 0 0 [] rfl⟩

/-- Claim C6: decompression returns none (no partial output) whenever the
frame is shorter than 9 bytes; or the order byte is outside {0, 1}; or the
embedded compressed-size field disagrees with the frame length (the C
compares against in_size - 9 in unsigned 32-bit arithmetic); or the table
parse fails, which is what happens when a cumulative-frequency check
exceeds TOTFREQ -- the last conjunct shows the parse loops return none as
soon as the running total would pass TOTFREQ. -/
theorem claim_C6 (inp : List Nat) :
    (inp.length < 9 → rans_uncompress inp = none)
  ∧ (inp.getD 0 0 ≠ 0 → inp.getD 0 0 ≠ 1 → rans_uncompress inp = none)
  ∧ (rdLE32 (inp.drop 1) ≠ (inp.length + (2 ^ 32 - 9)) % 2 ^ 32 →
       rans_uncompress inp = none)
  ∧ (inp.getD 0 0 = 0 → parseRow false (inp.drop 9) = none → rans_uncompress inp = none)
  ∧ (inp.getD 0 0 = 1 → parseTable1 (inp.drop 9) = none → rans_uncompress inp = none)
  ∧ (∀ (hack : Bool) fuel l j rle x acc f0 l2, readFreq l = some (f0, l2) →
       TOTFREQ < x + (if hack = true ∧ f0 = 0 then TOTFREQ else f0) →
       parseRowGo hack (fuel + 1) l j rle x acc = none) := by
  refine ⟨?_, ?_, ?_, ?_, ?_, ?_⟩
  · intro h
    unfold rans_uncompress
    rw [if_pos h]
  · intro h0 h1
    unfold rans_uncompress
    by_cases hlen : inp.length < 9
    · rw [if_pos hlen]
    · rw [if_neg hlen, if_pos h0]
      unfold rans_uncompress_O1
      rw [if_pos h1]
  · intro hsz
    unfold rans_uncompress
    by_cases hlen : inp.length < 9
    · rw [if_pos hlen]
    · rw [if_neg hlen]
      by_cases h0 : inp.getD 0 0 ≠ 0
      · rw [if_pos h0]
        unfold rans_uncompress_O1
        by_cases h1 : inp.getD 0 0 ≠ 1
        · rw [if_pos h1]
        · rw [if_neg h1]
          rw [if_pos hsz]
      · rw [if_neg h0]
        unfold rans_uncompress_O0
        rw [if_neg h0]
        rw [if_pos hsz]
  · intro h0 hp
    unfold rans_uncompress
    by_cases hlen : inp.length < 9
    · rw [if_pos hlen]
    · rw [if_neg hlen, if_neg (by simpa using h0)]
      unfold rans_uncompress_O0
      rw [if_neg (by simpa using h0)]
      by_cases hsz : rdLE32 (inp.drop 1) ≠ (inp.length + (2 ^ 32 - 9)) % 2 ^ 32
      · rw [if_pos hsz]
      · rw [if_neg hsz, hp]
  · intro h1 hp
    unfold rans_uncompress
    by_cases hlen : inp.length < 9
    · rw [if_pos hlen]
    · rw [if_neg hlen, if_pos (by rw [h1]; omega)]
      unfold rans_uncompress_O1
      rw [if_neg (by rw [h1]; omega)]
      by_cases hsz : rdLE32 (inp.drop 1) ≠ (inp.length + (2 ^ 32 - 9)) % 2 ^ 32
      · rw [if_pos hsz]
      · rw [if_neg hsz, hp]
  · intro hack fuel l j rle x acc f0 l2 hread hover
    rw [parseRowGo, hread]
    simp only []
    rw [if_pos hover]

theorem claim_C6_witness :
    rans_uncompress [] = none ∧
    rans_uncompress [2, 0, 0, 0, 0, 0, 0, 0, 0] = none ∧
    rans_uncompress [0, 9, 9, 9, 9, 0, 0, 0, 0] = none ∧
    parseRowGo false 3 [144, 1, 0] 0 0 4095 [] = none := by
  refine ⟨(claim_C6 []).1 (by decide),
    (claim_C6 [2, 0, 0, 0, 0, 0, 0, 0, 0]).2.1 (by decide) (by decide),
    (claim_C6 [0, 9, 9, 9, 9, 0, 0, 0, 0]).2.2.1 (by decide),
    (claim_C6 [144, 1, 0]).2.2.2.2.2 false 2 [144, 1, 0] 0 0 4095 [] 4097 [0]
      (by decide) (by decide)⟩

/-! ## Claim C8: order-0 tail handling -/

/-- Claim C8, counterexample: the tail symbols are NOT encoded after the main
backward loop: rans_compress_O0 runs o0EncTail first (the C switch at lines
487-493 executes before the for loop at line 494), and the two orders are not
interchangeable -- with the real encoder records for two symbols of frequency
2048 and a 5-byte input, running the main loop first and the tail afterwards
produces a different coder state. -/
theorem claim_C8_counterexample :
    ∃ (syms : Nat → RansEncSymbol) (inp : List Nat),
      o0EncMainGo syms inp (inp.length / 4) (o0EncTail syms inp encInitSt)
        ≠ o0EncTail syms inp (o0EncMainGo syms inp (inp.length / 4) encInitSt) := by
  refine ⟨fun b => if b = 0 then (RansEncSymbolInit 0 2048 TF_SHIFT).getD zeroEncSymbol
    else (RansEncSymbolInit 2048 2048 TF_SHIFT).getD zeroEncSymbol, [0, 0, 0, 0, 1], ?_⟩
  decide

/-- Claim C8 (amended): for a tail length r = N mod 4 in {1, 2, 3} the r
trailing symbols, at positions N-r .. N-1, are pushed on lanes 0 .. r-1
respectively -- but BEFORE the main backward loop runs, not after it (the
coder is LIFO, so the decoder pops them last); the decoder's tail switch at
the end of the main forward loop decodes lane k into position N-r+k. -/
theorem claim_C8_amended (syms : Nat → RansEncSymbol) (dsyms : Nat → RansDecSymbol)
    (R : Nat → Nat) (inp : List Nat) (st : EncSt) (dst : DecSt) (r n : Nat)
    (hn : n = inp.length) (hr : r = n % 4) (h1 : 1 ≤ r) :
    o0EncTail syms inp st
        = (List.range r).foldr
            (fun k s => putLane syms s k (inp.getD (n - r + k) 0)) st
    ∧ o0DecTail dsyms R (n - r) r dst
        = (List.range r).foldl
            (fun s k => o0DecTailLane dsyms R k (n - r + k) s) dst := by
  subst hn
  have h3 : r = 1 ∨ r = 2 ∨ r = 3 := by omega
  rcases h3 with h | h | h <;> subst h
  · constructor
    · unfold o0EncTail
      dsimp only []
      rw [← hr]
      show putLane syms st 0 (inp.getD (inp.length - 1) 0) = _
      simp [List.range_succ]
    · unfold o0DecTail
      simp [List.range_succ]
  · constructor
    · unfold o0EncTail
      dsimp only []
      rw [← hr]
      show putLane syms (putLane syms st 1 (inp.getD (inp.length - 1) 0)) 0
        (inp.getD (inp.length - 2) 0) = _
      simp only [List.range_succ, List.range_zero, List.foldr_append, List.foldr_cons,
        List.foldr_nil, List.nil_append]
      rw [show inp.length - 2 + 1 = inp.length - 1 from by omega,
        show inp.length - 2 + 0 = inp.length - 2 from by omega]
    · unfold o0DecTail
      simp only [List.range_succ, List.range_zero, List.foldl_append, List.foldl_cons,
        List.foldl_nil, List.nil_append]
      rw [show inp.length - 2 + 1 = inp.length - 1 from by omega,
        show inp.length - 2 + 0 = inp.length - 2 from by omega]
  · constructor
    · unfold o0EncTail
      dsimp only []
      rw [← hr]
      show putLane syms (putLane syms (putLane syms st 2 (inp.getD (inp.length - 1) 0))
        1 (inp.getD (inp.length - 2) 0)) 0 (inp.getD (inp.length - 3) 0) = _
      simp only [List.range_succ, List.range_zero, List.foldr_append, List.foldr_cons,
        List.foldr_nil, List.nil_append]
      rw [show inp.length - 3 + 2 = inp.length - 1 from by omega,
        show inp.length - 3 + 1 = inp.length - 2 from by omega,
        show inp.length - 3 + 0 = inp.length - 3 from by omega]
    · unfold o0DecTail
      simp only [List.range_succ, List.range_zero, List.foldl_append, List.foldl_cons,
        List.foldl_nil, List.nil_append]
      rw [show inp.length - 3 + 2 = inp.length - 1 from by omega,
        show inp.length - 3 + 1 = inp.length - 2 from by omega,
        show inp.length - 3 + 0 = inp.length - 3 from by omega]

theorem claim_C8_witness :
    o0EncTail (fun _ => zeroEncSymbol) [9] encInitSt
        = (List.range 1).foldr
            (fun k s => putLane (fun _ => zeroEncSymbol) s k ([9].getD (1 - 1 + k) 0)) encInitSt
    ∧ o0DecTail (fun _ => zeroDecSymbol) (fun _ => 0) (1 - 1) 1
          { d0 := 0, d1 := 0, d2 := 0, d3 := 0, rest := [], buf := [0] }
        = (List.range 1).foldl
            (fun s k => o0DecTailLane (fun _ => zeroDecSymbol) (fun _ => 0) k (1 - 1 + k) s)
            { d0 := 0, d1 := 0, d2 := 0, d3 := 0, rest := [], buf := [0] } :=
  claim_C8_amended (fun _ => zeroEncSymbol) (fun _ => zeroDecSymbol) (fun _ => 0) [9]
    encInitSt { d0 := 0, d1 := 0, d2 := 0, d3 := 0, rest := [], buf := [0] } 1 1
    rfl rfl (by decide)

/-! ## Frame size bounds (claim C9) -/

theorem nlog2Go_le : ∀ fuel c n, n < 2 ^ (c + 1) → c ≤ fuel → nlog2Go fuel n ≤ c := by
  intro fuel
  induction fuel with
  | zero => intro c n _ _; simp [nlog2Go]
  | succ f ih =>
    intro c n hn hc
    rw [nlog2Go]
    by_cases h1 : n ≤ 1
    · rw [if_pos h1]; omega
    · rw [if_neg h1]
      have hc1 : 1 ≤ c := by
        by_contra hcon
        have : c = 0 := by omega
        subst this
        simp at hn
        omega
      have hrec := ih (c - 1) (n / 2) (by
        have h2 : 2 ^ (c + 1) = 2 * 2 ^ ((c - 1) + 1) := by
          rw [← pow_succ']
          congr 1
          omega
        omega) (by omega)
      omega

/-- Lower bound for the truncated product with the double 1.05: truncation
recovers at least the floor of n * m105 / 2^52 (m105 is the 53-bit
significand of 1.05). -/
theorem fmul_d105_lb (n : Nat) (hn : n < 2 ^ 32) :
    (n * 4728779608739021) >>> 52 ≤ ftruncNat (fmulNat n d105) := by
  unfold fmulNat d105
  simp only []
  by_cases hlp : nlog2 (n * 4728779608739021) ≤ 52
  · rw [if_pos hlp]
    unfold ftruncNat
    dsimp only
    rw [if_neg (by norm_num : ¬ (0 : Int) ≤ -52)]
    exact Nat.le_refl _
  · rw [if_neg hlp]
    set prod := n * 4728779608739021 with hprod
    set k := nlog2 prod - 52 with hk
    have hprodlt : prod < 2 ^ 85 := by
      have hm : (4728779608739021 : Nat) < 2 ^ 53 := by norm_num
      calc prod < 2 ^ 32 * 2 ^ 53 := Nat.mul_lt_mul_of_lt_of_lt hn hm
      _ = 2 ^ 85 := by norm_num
    have hlp85 : nlog2 prod ≤ 84 := nlog2Go_le 128 84 prod (by omega) (by omega)
    have hk52 : k ≤ 32 := by omega
    unfold ftruncNat
    dsimp only
    rw [if_neg (by omega : ¬ (0 : Int) ≤ -52 + (k : Int))]
    have h1 : (-((-52 : Int) + (k : Int))).toNat = 52 - k := by omega
    rw [h1]
    have hm' : prod >>> k ≤ (if prod % 2 ^ k < 2 ^ (k - 1) then prod >>> k
        else if 2 ^ (k - 1) < prod % 2 ^ k then prod >>> k + 1
        else if prod >>> k % 2 = 0 then prod >>> k else prod >>> k + 1) := by
      split
      · exact Nat.le_refl _
      · split
        · omega
        · split
          · exact Nat.le_refl _
          · omega
    have heq : prod >>> 52 = (prod >>> k) >>> (52 - k) := by
      rw [← Nat.shiftRight_add]
      congr 1
      omega
    rw [heq]
    simp only [Nat.shiftRight_eq_div_pow] at hm' ⊢
    exact Nat.div_le_div_right hm'

/-- The (int)(1.05 * in_size) guard bounds the input size: if the conversion
stays below 2^31 then in_size is at most 2045222520 (about 2^30.93). -/
theorem d105_n_bound (n : Nat) (hn : n < 2 ^ 32)
    (h : ftruncNat (fmulNat n d105) < 2 ^ 31) : n ≤ 2045222521 := by
  have hlb := fmul_d105_lb n hn
  have h52 : (n * 4728779608739021) >>> 52 < 2 ^ 31 := lt_of_le_of_lt hlb h
  rw [Nat.shiftRight_eq_div_pow] at h52
  have hprod : n * 4728779608739021 < 2 ^ 31 * 2 ^ 52 :=
    (Nat.div_lt_iff_lt_mul (by positivity : 0 < (2 : Nat) ^ 52)).mp h52
  by_contra hcon
  have h2 : 2045222522 * 4728779608739021 ≤ n * 4728779608739021 :=
    Nat.mul_le_mul_right _ (by omega)
  have h3 : (2045222522 : Nat) * 4728779608739021 < 2 ^ 31 * 2 ^ 52 :=
    lt_of_le_of_lt h2 hprod
  norm_num at h3

theorem encRenormGo_zero : ∀ fuel x acc, encRenormGo 0 fuel x acc = (x, acc) := by
  intro fuel x acc
  cases fuel with
  | zero => rfl
  | succ f =>
    rw [encRenormGo]
    rw [if_neg (by omega : ¬ (1 ≤ 0 ∧ 0 ≤ x))]

theorem encRenormGo_len (xmax : Nat) :
    ∀ fuel k x acc, x < 2 ^ (8 * k) * xmax → k ≤ fuel →
      (encRenormGo xmax fuel x acc).2.length ≤ acc.length + k := by
  intro fuel
  induction fuel with
  | zero => intro k x acc _ _; simp [encRenormGo]
  | succ f ih =>
    intro k x acc h hk
    rw [encRenormGo]
    by_cases hc : 1 ≤ xmax ∧ xmax ≤ x
    · rw [if_pos hc]
      have hk0 : k ≠ 0 := by
        rintro rfl
        simp at h
        omega
      have hstep : x >>> 8 < 2 ^ (8 * (k - 1)) * xmax := by
        rw [Nat.shiftRight_eq_div_pow]
        have h2 : 2 ^ (8 * k) * xmax = (2 ^ (8 * (k - 1)) * xmax) * 2 ^ 8 := by
          rw [show 8 * k = 8 * (k - 1) + 8 from by omega, pow_add]
          ring
        rw [h2] at h
        omega
      have hrec := ih (k - 1) (x >>> 8) (x % 256 :: acc) hstep (by omega)
      simp only [List.length_cons] at hrec
      omega
    · rw [if_neg hc]
      simp only []
      omega

/-- Records the table loops can build: either an uninitialised record
(x_max = 0, no renormalisation bytes are ever emitted for it because the
while condition x >= x_max is modelled with the 1 <= x_max conjunct) or an
initialised one, whose x_max = ((L >> 12) << 8) * freq is at least 2^19. -/
def goodXmax (sym : RansEncSymbol) : Prop := sym.x_max = 0 ∨ 2 ^ 19 ≤ sym.x_max

theorem putSymbol_bytes (sym : RansEncSymbol) (x : Nat) (acc : List Nat)
    (hg : goodXmax sym) (_hx : x < 2 ^ 32) :
    (RansEncPutSymbol x acc sym).1 < 2 ^ 32 ∧
      (RansEncPutSymbol x acc sym).2.length ≤ acc.length + 2 := by
  constructor
  · unfold RansEncPutSymbol
    simp only []
    exact Nat.mod_lt _ (by norm_num)
  · unfold RansEncPutSymbol encRenorm
    simp only []
    rcases hg with h0 | h19
    · rw [h0, encRenormGo_zero]
      show acc.length ≤ acc.length + 2
      omega
    · refine encRenormGo_len sym.x_max 8 2 x acc ?_ (by omega)
      have : 2 ^ 16 * 2 ^ 19 ≤ 2 ^ 16 * sym.x_max := Nat.mul_le_mul_left _ h19
      omega

/-- The lane states stay below 2^32 (they are uint32 values). -/
def stWF (st : EncSt) : Prop :=
  st.r0 < 2 ^ 32 ∧ st.r1 < 2 ^ 32 ∧ st.r2 < 2 ^ 32 ∧ st.r3 < 2 ^ 32

theorem putLane_bytes (syms : Nat → RansEncSymbol) (st : EncSt) (k b : Nat)
    (hg : goodXmax (syms b)) (hst : stWF st) :
    stWF (putLane syms st k b) ∧ (putLane syms st k b).acc.length ≤ st.acc.length + 2 := by
  obtain ⟨h0, h1, h2, h3⟩ := hst
  unfold putLane
  match k with
  | 0 =>
    have hp := putSymbol_bytes (syms b) st.r0 st.acc hg h0
    exact ⟨⟨hp.1, h1, h2, h3⟩, hp.2⟩
  | 1 =>
    have hp := putSymbol_bytes (syms b) st.r1 st.acc hg h1
    exact ⟨⟨h0, hp.1, h2, h3⟩, hp.2⟩
  | 2 =>
    have hp := putSymbol_bytes (syms b) st.r2 st.acc hg h2
    exact ⟨⟨h0, h1, hp.1, h3⟩, hp.2⟩
  | n + 3 =>
    have hp := putSymbol_bytes (syms b) st.r3 st.acc hg h3
    exact ⟨⟨h0, h1, h2, hp.1⟩, hp.2⟩

theorem o0EncTail_bytes (syms : Nat → RansEncSymbol) (inp : List Nat) (st : EncSt)
    (hg : ∀ b, goodXmax (syms b)) (hst : stWF st) :
    stWF (o0EncTail syms inp st) ∧
      (o0EncTail syms inp st).acc.length ≤ st.acc.length + 6 := by
  unfold o0EncTail
  dsimp only
  have h4 : inp.length % 4 = 0 ∨ inp.length % 4 = 1 ∨ inp.length % 4 = 2 ∨
      inp.length % 4 = 3 := by omega
  rcases h4 with h | h | h | h <;> rw [h] <;> dsimp only
  · exact ⟨hst, by omega⟩
  · have p1 := putLane_bytes syms st 0 (inp.getD (inp.length - 1) 0) (hg _) hst
    exact ⟨p1.1, by omega⟩
  · have p1 := putLane_bytes syms st 1 (inp.getD (inp.length - 1) 0) (hg _) hst
    have p2 := putLane_bytes syms _ 0 (inp.getD (inp.length - 2) 0) (hg _) p1.1
    refine ⟨p2.1, ?_⟩
    have := p1.2
    have := p2.2
    omega
  · have p1 := putLane_bytes syms st 2 (inp.getD (inp.length - 1) 0) (hg _) hst
    have p2 := putLane_bytes syms _ 1 (inp.getD (inp.length - 2) 0) (hg _) p1.1
    have p3 := putLane_bytes syms _ 0 (inp.getD (inp.length - 3) 0) (hg _) p2.1
    refine ⟨p3.1, ?_⟩
    have := p1.2
    have := p2.2
    have := p3.2
    omega

theorem o0EncMainGo_bytes (syms : Nat → RansEncSymbol) (inp : List Nat)
    (hg : ∀ b, goodXmax (syms b)) :
    ∀ q st, stWF st → stWF (o0EncMainGo syms inp q st) ∧
      (o0EncMainGo syms inp q st).acc.length ≤ st.acc.length + 8 * q := by
  intro q
  induction q with
  | zero => intro st hst; exact ⟨hst, by rw [o0EncMainGo]; omega⟩
  | succ n ih =>
    intro st hst
    rw [o0EncMainGo]
    have p1 := putLane_bytes syms st 3 (inp.getD (4 * n + 3) 0) (hg _) hst
    have p2 := putLane_bytes syms _ 2 (inp.getD (4 * n + 2) 0) (hg _) p1.1
    have p3 := putLane_bytes syms _ 1 (inp.getD (4 * n + 1) 0) (hg _) p2.1
    have p4 := putLane_bytes syms _ 0 (inp.getD (4 * n) 0) (hg _) p3.1
    have hrec := ih _ p4.1
    refine ⟨hrec.1, ?_⟩
    have := p1.2
    have := p2.2
    have := p3.2
    have := p4.2
    have := hrec.2
    omega

theorem le32_length (x : Nat) : (le32 x).length = 4 := rfl

theorem encFlushAll_len (st : EncSt) : (encFlushAll st).length = st.acc.length + 16 := by
  unfold encFlushAll RansEncFlush
  simp [le32]

theorem freqBytes_len_le (f : Nat) : (freqBytes f).length ≤ 2 := by
  unfold freqBytes
  split <;> simp

theorem emitRowGo_len (F : Nat → Nat) :
    ∀ fuel j rle, (emitRowGo F fuel j rle).length ≤ 4 * fuel + 1 := by
  intro fuel
  induction fuel with
  | zero => intro j rle; simp [emitRowGo]
  | succ f ih =>
    intro j rle
    rw [emitRowGo]
    have hfb := freqBytes_len_le (F j)
    by_cases h1 : F j = 0
    · rw [if_pos h1]
      have := ih (j + 1) rle
      omega
    · rw [if_neg h1]
      by_cases h2 : 0 < rle
      · rw [if_pos h2]
        have := ih (j + 1) (rle - 1)
        simp only [List.length_append]
        omega
      · rw [if_neg h2]
        by_cases h3 : j ≠ 0 ∧ F (j - 1) ≠ 0
        · rw [if_pos h3]
          have := ih (j + 1) (runScan F (j + 1))
          simp only [List.length_cons, List.length_append]
          omega
        · rw [if_neg h3]
          have := ih (j + 1) 0
          simp only [List.length_cons, List.length_append]
          omega

theorem emitRow_len (F : Nat → Nat) : (emitRow F).length ≤ 1025 := by
  have := emitRowGo_len F 256 0 0
  unfold emitRow
  omega

theorem init_goodXmax (s f : Nat) (sym : RansEncSymbol)
    (h : RansEncSymbolInit s f TF_SHIFT = some sym) : goodXmax sym := by
  have hx : ((RANS_BYTE_L >>> TF_SHIFT) <<< 8) = 2 ^ 19 := by decide
  unfold RansEncSymbolInit at h
  dsimp only at h
  split at h
  · cases h
    unfold goodXmax
    dsimp only
    rw [hx]
    cases f with
    | zero => left; simp
    | succ m => right; exact Nat.le_mul_of_pos_right _ (by omega)
  · rcases hs : encShift f with _ | shift
    · rw [hs] at h
      cases h
    · rw [hs] at h
      cases h
      unfold goodXmax
      dsimp only
      rw [hx]
      cases f with
      | zero => left; simp
      | succ m => right; exact Nat.le_mul_of_pos_right _ (by omega)

theorem buildSyms_goodXmax (F : Nat → Nat) :
    ∀ n s, buildSyms F n = some s → ∀ b, goodXmax (s b) := by
  intro n
  induction n with
  | zero =>
    intro s h b
    cases h
    left
    rfl
  | succ j ih =>
    intro s h b
    rw [buildSyms] at h
    cases hb : buildSyms F j with
    | none => rw [hb] at h; cases h
    | some s1 =>
      rw [hb] at h
      dsimp only at h
      by_cases hF : F j = 0
      · rw [if_pos hF] at h
        cases h
        exact ih _ hb b
      · rw [if_neg hF] at h
        cases hi : RansEncSymbolInit (cum256 F j) (F j) TF_SHIFT with
        | none => rw [hi] at h; cases h
        | some sym =>
          rw [hi] at h
          cases h
          dsimp only
          by_cases hbj : b = j
          · rw [if_pos hbj]
            exact init_goodXmax _ _ _ hi
          · rw [if_neg hbj]
            exact ih _ hb b

theorem buildSyms2_goodXmax (F : Nat → Nat → Nat) (T : Nat → Nat) :
    ∀ n s2, buildSyms2 F T n = some s2 → ∀ a b, goodXmax (s2 a b) := by
  intro n
  induction n with
  | zero =>
    intro s2 h a b
    cases h
    left
    rfl
  | succ i ih =>
    intro s2 h a b
    rw [buildSyms2] at h
    cases hb : buildSyms2 F T i with
    | none => rw [hb] at h; cases h
    | some s1 =>
      rw [hb] at h
      dsimp only at h
      by_cases hT : T i = 0
      · rw [if_pos hT] at h
        cases h
        exact ih _ hb a b
      · rw [if_neg hT] at h
        cases hi : o0Syms (fun j => (o1RowNorm (F i) (T i) j).toNat) with
        | none => rw [hi] at h; cases h
        | some rowS =>
          rw [hi] at h
          cases h
          dsimp only
          by_cases hai : a = i
          · rw [if_pos hai]
            exact buildSyms_goodXmax _ 256 rowS hi b
          · rw [if_neg hai]
            exact ih _ hb a b

theorem putLane2_eq (syms2 : Nat → Nat → RansEncSymbol) (st : EncSt) (k a b : Nat) :
    putLane2 syms2 st k a b = putLane (syms2 a) st k b := by
  match k with
  | 0 => rfl
  | 1 => rfl
  | 2 => rfl
  | n + 3 => rfl

theorem o1EncRemGo_bytes (syms2 : Nat → Nat → RansEncSymbol) (inp : List Nat) (base : Nat)
    (hg : ∀ a b, goodXmax (syms2 a b)) :
    ∀ cnt l3 st, stWF st → stWF (o1EncRemGo syms2 inp base cnt l3 st).1 ∧
      (o1EncRemGo syms2 inp base cnt l3 st).1.acc.length ≤ st.acc.length + 2 * cnt := by
  intro cnt
  induction cnt with
  | zero => intro l3 st hst; exact ⟨hst, by rw [o1EncRemGo]; simp⟩
  | succ n ih =>
    intro l3 st hst
    rw [o1EncRemGo]
    rw [putLane2_eq]
    have p1 := putLane_bytes (syms2 (inp.getD (base + n) 0)) st 3 l3 (hg _ _) hst
    have hrec := ih (inp.getD (base + n) 0) _ p1.1
    refine ⟨hrec.1, ?_⟩
    have := p1.2
    have := hrec.2
    omega

theorem o1EncMainGo_bytes (syms2 : Nat → Nat → RansEncSymbol) (inp : List Nat) (isz4 : Nat)
    (hg : ∀ a b, goodXmax (syms2 a b)) :
    ∀ cnt l0 l1 l2 l3 st, stWF st →
      stWF (o1EncMainGo syms2 inp isz4 cnt l0 l1 l2 l3 st).1 ∧
      (o1EncMainGo syms2 inp isz4 cnt l0 l1 l2 l3 st).1.acc.length ≤
        st.acc.length + 8 * cnt := by
  intro cnt
  induction cnt with
  | zero => intro l0 l1 l2 l3 st hst; exact ⟨hst, by rw [o1EncMainGo]; simp⟩
  | succ n ih =>
    intro l0 l1 l2 l3 st hst
    rw [o1EncMainGo]
    rw [putLane2_eq, putLane2_eq, putLane2_eq, putLane2_eq]
    have p1 := putLane_bytes (syms2 (inp.getD (3 * isz4 + n) 0)) st 3 l3 (hg _ _) hst
    have p2 := putLane_bytes (syms2 (inp.getD (2 * isz4 + n) 0)) _ 2 l2 (hg _ _) p1.1
    have p3 := putLane_bytes (syms2 (inp.getD (isz4 + n) 0)) _ 1 l1 (hg _ _) p2.1
    have p4 := putLane_bytes (syms2 (inp.getD n 0)) _ 0 l0 (hg _ _) p3.1
    have hrec := ih (inp.getD n 0) (inp.getD (isz4 + n) 0) (inp.getD (2 * isz4 + n) 0) (inp.getD (3 * isz4 + n) 0) _ p4.1
    refine ⟨hrec.1, ?_⟩
    have := p1.2
    have := p2.2
    have := p3.2
    have := p4.2
    have := hrec.2
    omega

theorem emitTable1Go_len (F : Nat → Nat → Nat) (T : Nat → Nat) :
    ∀ fuel i rle tb, emitTable1Go F T fuel i rle = some tb →
      tb.length ≤ 1027 * fuel + 1 := by
  intro fuel
  induction fuel with
  | zero =>
    intro i rle tb h
    cases h
    simp
  | succ f ih =>
    intro i rle tb h
    rw [emitTable1Go] at h
    by_cases hT : T i = 0
    · rw [if_pos hT] at h
      have := ih (i + 1) rle tb h
      omega
    · rw [if_neg hT] at h
      dsimp only at h
      by_cases hneg : (List.range 256).any fun j =>
          decide (o1RowNorm (F i) (T i) j < 0)
      · rw [if_pos hneg] at h
        cases h
      · rw [if_neg hneg] at h
        have hrow := emitRow_len fun j => (o1RowNorm (F i) (T i) j).toNat
        by_cases hr : 0 < rle
        · rw [if_pos hr] at h
          cases hrec : emitTable1Go F T f (i + 1) (rle - 1) with
          | none => rw [hrec] at h; cases h
          | some rest =>
            rw [hrec] at h
            cases h
            have := ih (i + 1) (rle - 1) rest hrec
            simp only [List.length_append]
            omega
        · rw [if_neg hr] at h
          by_cases hpred : i ≠ 0 ∧ T (i - 1) ≠ 0
          · rw [if_pos hpred] at h
            cases hrec : emitTable1Go F T f (i + 1) (runScan T (i + 1)) with
            | none => rw [hrec] at h; cases h
            | some rest =>
              rw [hrec] at h
              cases h
              have := ih (i + 1) (runScan T (i + 1)) rest hrec
              simp only [List.length_cons, List.length_append]
              omega
          · rw [if_neg hpred] at h
            cases hrec : emitTable1Go F T f (i + 1) 0 with
            | none => rw [hrec] at h; cases h
            | some rest =>
              rw [hrec] at h
              cases h
              have := ih (i + 1) 0 rest hrec
              simp only [List.length_cons, List.length_append]
              omega

theorem o0Frame_fields (F : Nat → Nat) (inp frame : List Nat) (hn32 : inp.length < 2 ^ 32)
    (h : o0CompressCore F inp = some frame) :
    frame.getD 0 0 = 0 ∧ rdLE32 (frame.drop 1) = frame.length - 9 ∧
      rdLE32 (frame.drop 5) = inp.length := by
  unfold o0CompressCore at h
  simp only [] at h
  by_cases hg : 2 ^ 31 ≤ ftruncNat (fmulNat inp.length d105)
  · rw [if_pos hg] at h; cases h
  rw [if_neg hg] at h
  by_cases hn0 : inp.length = 0
  · rw [if_pos hn0] at h; cases h
  rw [if_neg hn0] at h
  by_cases hM : o0Norm F inp.length (argmaxF F) ≤ 0
  · rw [if_pos hM] at h; cases h
  rw [if_neg hM] at h
  cases hsy : o0Syms fun j => (o0Norm F inp.length j).toNat with
  | none => rw [hsy] at h; cases h
  | some syms =>
    rw [hsy] at h
    cases h
    have hgood : ∀ b, goodXmax (syms b) := buildSyms_goodXmax _ 256 syms hsy
    have hwf0 : stWF encInitSt := by
      refine ⟨by decide, by decide, by decide, by decide⟩
    have ht := o0EncTail_bytes syms inp encInitSt hgood hwf0
    have hmn := o0EncMainGo_bytes syms inp hgood (inp.length / 4) _ ht.1
    have hpl := encFlushAll_len (o0EncMainGo syms inp (inp.length / 4)
      (o0EncTail syms inp encInitSt))
    have htab := emitRow_len fun j => (o0Norm F inp.length j).toNat
    have hnb := d105_n_bound inp.length hn32 (by omega)
    have hinit0 : encInitSt.acc.length = 0 := rfl
    set table := emitRow fun j => (o0Norm F inp.length j).toNat with htabdef
    set payload := encFlushAll (o0EncMainGo syms inp (inp.length / 4)
      (o0EncTail syms inp encInitSt)) with hpldef
    have hplb : payload.length ≤ 2 * inp.length + 22 := by
      have h1 := ht.2
      have h2 := hmn.2
      omega
    have hszb : table.length + payload.length < 2 ^ 32 := by omega
    refine ⟨rfl, ?_, ?_⟩
    · have hdrop : ((0 :: le32 (9 + table.length + payload.length - 9)) ++
          le32 inp.length ++ table ++ payload).drop 1
          = le32 (9 + table.length + payload.length - 9) ++
            (le32 inp.length ++ (table ++ payload)) := by
        simp
      rw [hdrop, rdLE32_le32 _ _ (by omega)]
      have hlen : ((0 :: le32 (9 + table.length + payload.length - 9)) ++
          le32 inp.length ++ table ++ payload).length
          = 9 + table.length + payload.length := by
        simp [le32]
        omega
      rw [hlen]
    · have hdrop : ((0 :: le32 (9 + table.length + payload.length - 9)) ++
          le32 inp.length ++ table ++ payload).drop 5
          = le32 inp.length ++ (table ++ payload) := by
        simp [le32]
      rw [hdrop, rdLE32_le32 _ _ hn32]

theorem o1Frame_fields (F : Nat → Nat → Nat) (T : Nat → Nat) (inp frame : List Nat)
    (hn32 : inp.length < 2 ^ 32) (h : o1CompressCore F T inp = some frame) :
    frame.getD 0 0 = 1 ∧ rdLE32 (frame.drop 1) = frame.length - 9 ∧
      rdLE32 (frame.drop 5) = inp.length := by
  unfold o1CompressCore at h
  simp only [] at h
  by_cases hg : 2 ^ 31 ≤ ftruncNat (fmulNat inp.length d105)
  · rw [if_pos hg] at h; cases h
  rw [if_neg hg] at h
  cases htb : emitTable1 F T with
  | none => rw [htb] at h; cases h
  | some table =>
    rw [htb] at h
    cases hsy : o1Syms F T with
    | none => rw [hsy] at h; cases h
    | some syms2 =>
      rw [hsy] at h
      cases h
      have hgood : ∀ a b, goodXmax (syms2 a b) := buildSyms2_goodXmax F T 256 syms2 hsy
      have hwf0 : stWF encInitSt := ⟨by decide, by decide, by decide, by decide⟩
      have hrem := o1EncRemGo_bytes syms2 inp (4 * (inp.length / 4) - 1) hgood
        (inp.length % 4) (inp.getD (inp.length - 1) 0) encInitSt hwf0
      set rem := o1EncRemGo syms2 inp (4 * (inp.length / 4) - 1) (inp.length % 4)
        (inp.getD (inp.length - 1) 0) encInitSt with hremdef
      have hmn := o1EncMainGo_bytes syms2 inp (inp.length / 4) hgood
        (inp.length / 4 - 1) (inp.getD (inp.length / 4 - 1) 0)
        (inp.getD (2 * (inp.length / 4) - 1) 0) (inp.getD (3 * (inp.length / 4) - 1) 0)
        rem.2 rem.1 hrem.1
      set mn := o1EncMainGo syms2 inp (inp.length / 4) (inp.length / 4 - 1)
        (inp.getD (inp.length / 4 - 1) 0) (inp.getD (2 * (inp.length / 4) - 1) 0)
        (inp.getD (3 * (inp.length / 4) - 1) 0) rem.2 rem.1 with hmndef
      rw [putLane2_eq, putLane2_eq, putLane2_eq, putLane2_eq]
      have pA := putLane_bytes (syms2 0) mn.1 3 mn.2.2.2.2 (hgood _ _) hmn.1
      have pB := putLane_bytes (syms2 0) _ 2 mn.2.2.2.1 (hgood _ _) pA.1
      have pC := putLane_bytes (syms2 0) _ 1 mn.2.2.1 (hgood _ _) pB.1
      have pD := putLane_bytes (syms2 0) _ 0 mn.2.1 (hgood _ _) pC.1
      set stD := putLane (syms2 0) (putLane (syms2 0) (putLane (syms2 0)
        (putLane (syms2 0) mn.1 3 mn.2.2.2.2) 2 mn.2.2.2.1) 1 mn.2.2.1) 0 mn.2.1 with hstD
      have hpl := encFlushAll_len stD
      set payload := encFlushAll stD with hpldef
      have htab : table.length ≤ 262913 := by
        have := emitTable1Go_len F T 256 0 0 table htb
        omega
      have hnb := d105_n_bound inp.length hn32 (by omega)
      have hinit0 : encInitSt.acc.length = 0 := rfl
      have hplb : payload.length ≤ 2 * inp.length + 32 := by
        have h1 := hrem.2
        have h2 := hmn.2
        have h3 := pA.2
        have h4 := pB.2
        have h5 := pC.2
        have h6 := pD.2
        have hd4 : 8 * (inp.length / 4 - 1) ≤ 2 * inp.length := by omega
        omega
      have hszb : table.length + payload.length < 2 ^ 32 := by omega
      refine ⟨rfl, ?_, ?_⟩
      · have hdrop : ((1 :: le32 (9 + table.length + payload.length - 9)) ++
            le32 inp.length ++ table ++ payload).drop 1
            = le32 (9 + table.length + payload.length - 9) ++
              (le32 inp.length ++ (table ++ payload)) := by
          simp
        rw [hdrop, rdLE32_le32 _ _ (by omega)]
        have hlen : ((1 :: le32 (9 + table.length + payload.length - 9)) ++
            le32 inp.length ++ table ++ payload).length
            = 9 + table.length + payload.length := by
          simp [le32]
          omega
        rw [hlen]
      · have hdrop : ((1 :: le32 (9 + table.length + payload.length - 9)) ++
            le32 inp.length ++ table ++ payload).drop 5
            = le32 inp.length ++ (table ++ payload) := by
          simp [le32]
        rw [hdrop, rdLE32_le32 _ _ hn32]

/-! ## Decoder output length -/

theorem o0DecStep_buf (syms : Nat → RansDecSymbol) (R : Nat → Nat) (i : Nat) (st : DecSt) :
    (o0DecStep syms R i st).buf.length = st.buf.length := by
  unfold o0DecStep
  simp [List.length_set]

theorem o0DecGo_buf (syms : Nat → RansDecSymbol) (R : Nat → Nat) :
    ∀ q i st, (o0DecGo syms R q i st).buf.length = st.buf.length := by
  intro q
  induction q with
  | zero => intro i st; rfl
  | succ n ih =>
    intro i st
    rw [o0DecGo]
    rw [ih]
    exact o0DecStep_buf syms R i st

theorem o0DecTailLane_buf (syms : Nat → RansDecSymbol) (R : Nat → Nat) (k pos : Nat)
    (st : DecSt) : (o0DecTailLane syms R k pos st).buf.length = st.buf.length := by
  unfold o0DecTailLane
  match k with
  | 0 => simp [List.length_set]
  | 1 => simp [List.length_set]
  | n + 2 => simp [List.length_set]

theorem o0DecTail_buf (syms : Nat → RansDecSymbol) (R : Nat → Nat) (outEnd r : Nat)
    (st : DecSt) : (o0DecTail syms R outEnd r st).buf.length = st.buf.length := by
  unfold o0DecTail
  match r with
  | 0 => rfl
  | 1 => rw [o0DecTailLane_buf]
  | 2 => rw [o0DecTailLane_buf, o0DecTailLane_buf]
  | 3 => rw [o0DecTailLane_buf, o0DecTailLane_buf, o0DecTailLane_buf]
  | n + 4 => rfl

theorem o1DecStep_buf (syms2 : Nat → Nat → RansDecSymbol) (R2 : Nat → Nat → Nat)
    (isz4 t l0 l1 l2 l3 : Nat) (st : DecSt) :
    (o1DecStep syms2 R2 isz4 t l0 l1 l2 l3 st).1.buf.length = st.buf.length := by
  unfold o1DecStep
  simp [List.length_set]

theorem o1DecMainGo_buf (syms2 : Nat → Nat → RansDecSymbol) (R2 : Nat → Nat → Nat)
    (isz4 : Nat) : ∀ q t l0 l1 l2 l3 st,
    (o1DecMainGo syms2 R2 isz4 q t l0 l1 l2 l3 st).1.buf.length = st.buf.length := by
  intro q
  induction q with
  | zero => intro t l0 l1 l2 l3 st; rfl
  | succ n ih =>
    intro t l0 l1 l2 l3 st
    rw [o1DecMainGo]
    rw [ih]
    exact o1DecStep_buf syms2 R2 isz4 t l0 l1 l2 l3 st

theorem o1DecRemGo_buf (syms2 : Nat → Nat → RansDecSymbol) (R2 : Nat → Nat → Nat) :
    ∀ cnt pos l3 st, (o1DecRemGo syms2 R2 cnt pos l3 st).buf.length = st.buf.length := by
  intro cnt
  induction cnt with
  | zero => intro pos l3 st; rfl
  | succ n ih =>
    intro pos l3 st
    rw [o1DecRemGo]
    rw [ih]
    simp [List.length_set]

theorem o0_uncompress_len (inp out : List Nat) (h : rans_uncompress_O0 inp = some out) :
    out.length = rdLE32 (inp.drop 5) := by
  unfold rans_uncompress_O0 at h
  simp only [] at h
  by_cases h0 : inp.getD 0 0 ≠ 0
  · rw [if_pos h0] at h; cases h
  rw [if_neg h0] at h
  by_cases hsz : rdLE32 (inp.drop 1) ≠ (inp.length + (2 ^ 32 - 9)) % 2 ^ 32
  · rw [if_pos hsz] at h; cases h
  rw [if_neg hsz] at h
  cases hp : parseRow false (inp.drop 9) with
  | none => rw [hp] at h; cases h
  | some pr =>
    rw [hp] at h
    match pr with
    | (pairs, rest) =>
      simp only [] at h
      by_cases hx : TOTFREQ ≤ (pairs.map Prod.snd).sum
      · rw [if_pos hx] at h; cases h
      rw [if_neg hx] at h
      cases h
      rw [o0DecTail_buf, o0DecGo_buf]
      simp

theorem o1_uncompress_len (inp out : List Nat) (h : rans_uncompress_O1 inp = some out) :
    out.length = rdLE32 (inp.drop 5) := by
  unfold rans_uncompress_O1 at h
  simp only [] at h
  by_cases h0 : inp.getD 0 0 ≠ 1
  · rw [if_pos h0] at h; cases h
  rw [if_neg h0] at h
  by_cases hsz : rdLE32 (inp.drop 1) ≠ (inp.length + (2 ^ 32 - 9)) % 2 ^ 32
  · rw [if_pos hsz] at h; cases h
  rw [if_neg hsz] at h
  cases hp : parseTable1 (inp.drop 9) with
  | none => rw [hp] at h; cases h
  | some pr =>
    rw [hp] at h
    match pr with
    | (ctxs, rest) =>
      simp only [] at h
      cases h
      rw [o1DecRemGo_buf, o1DecMainGo_buf]
      simp

/-- Claim C9: for every frame either compressor produces, byte 0 is the
order flag actually used (0 for order-0, 1 for order-1; order-1 falls back
to 0 for inputs shorter than 4 bytes), the little-endian uint32 at bytes
1..4 is the frame length minus 9, and the little-endian uint32 at bytes 5..8
is the input size N; conversely, whenever decompression succeeds its output
length equals that stored field.  The in_size < 2^32 hypothesis reflects the
C prototype, whose in_size parameter is a uint32. -/
theorem claim_C9 :
    (∀ inp order frame, inp.length < 2 ^ 32 → rans_compress inp order = some frame →
        (frame.getD 0 0 = if order ≠ 0 ∧ 4 ≤ inp.length then 1 else 0)
      ∧ rdLE32 (frame.drop 1) = frame.length - 9
      ∧ rdLE32 (frame.drop 5) = inp.length)
  ∧ (∀ inp out, rans_uncompress inp = some out → out.length = rdLE32 (inp.drop 5)) := by
  constructor
  · intro inp order frame hn32 h
    unfold rans_compress at h
    by_cases ho : order ≠ 0
    · rw [if_pos ho] at h
      unfold rans_compress_O1 at h
      by_cases h4 : inp.length < 4
      · rw [if_pos h4] at h
        unfold rans_compress_O0 at h
        have hf := o0Frame_fields _ _ _ hn32 h
        refine ⟨?_, hf.2.1, hf.2.2⟩
        rw [if_neg (by rintro ⟨_, hc⟩; omega)]
        exact hf.1
      · rw [if_neg h4] at h
        have hf := o1Frame_fields _ _ _ _ hn32 h
        refine ⟨?_, hf.2.1, hf.2.2⟩
        rw [if_pos ⟨ho, by omega⟩]
        exact hf.1
    · rw [if_neg ho] at h
      unfold rans_compress_O0 at h
      have hf := o0Frame_fields _ _ _ hn32 h
      refine ⟨?_, hf.2.1, hf.2.2⟩
      rw [if_neg (by rintro ⟨hc, _⟩; exact ho hc)]
      exact hf.1
  · intro inp out h
    unfold rans_uncompress at h
    by_cases hl : inp.length < 9
    · rw [if_pos hl] at h; cases h
    rw [if_neg hl] at h
    by_cases h0 : inp.getD 0 0 ≠ 0
    · rw [if_pos h0] at h
      exact o1_uncompress_len inp out h
    · rw [if_neg h0] at h
      exact o0_uncompress_len inp out h

/-- Concrete order-0 frame of the input [65, 66, 65]. -/
def frameABA : List Nat :=
  [0, 24, 0, 0, 0, 3, 0, 0, 0, 65, 138, 170, 66, 0, 133, 85, 0, 0, 8, 192,
   0, 85, 29, 128, 1, 0, 8, 192, 0, 0, 0, 128, 0]

theorem claim_C9_witness :
    ((frameABA.getD 0 0 = if (0 : Nat) ≠ 0 ∧ 4 ≤ [65, 66, 65].length then 1 else 0)
      ∧ rdLE32 (frameABA.drop 1) = frameABA.length - 9
      ∧ rdLE32 (frameABA.drop 5) = [65, 66, 65].length)
    ∧ [65, 66, 65].length = rdLE32 (frameABA.drop 5) :=
  ⟨claim_C9.1 [65, 66, 65] 0 frameABA (by decide) (by decide),
   claim_C9.2 frameABA [65, 66, 65] (by decide)⟩

/-! ## Round trip of the order-1 outer table (claims C3, C7) -/

/-- Normalised row of a present order-1 context, as the natural-valued
function stored into the table (toNat of the adjusted row). -/
def rowFv (F : Nat → Nat → Nat) (T : Nat → Nat) (i : Nat) : Nat → Nat :=
  fun j => (o1RowNorm (F i) (T i) j).toNat

/-- Present contexts from index i on, with their present-pairs rows: the
reference value both the outer emitter and the outer parser produce. -/
def ctxsFromGo (F : Nat → Nat → Nat) (T : Nat → Nat) : Nat → Nat → List (Nat × List (Nat × Nat))
  | 0, _ => []
  | fuel + 1, i =>
    (if T i = 0 then [] else [(i, presentPairs (rowFv F T i))]) ++ ctxsFromGo F T fuel (i + 1)

def presentCtxs (F : Nat → Nat → Nat) (T : Nat → Nat) : List (Nat × List (Nat × Nat)) :=
  ctxsFromGo F T 256 0

theorem pairsFromGo_sum (G : Nat → Nat) :
    ∀ fuel j, ((pairsFromGo G fuel j).map Prod.snd).sum
      = ((List.range fuel).map fun t => G (j + t)).sum := by
  intro fuel
  induction fuel with
  | zero => intro j; rfl
  | succ f ih =>
    intro j
    rw [pairsFromGo, List.range_succ_eq_map]
    simp only [List.map_cons, List.sum_cons, List.map_map]
    have hcomp : (((fun t => G (j + t)) ∘ Nat.succ) : Nat → Nat) = fun t => G (j + 1 + t) := by
      funext t
      show G (j + (t + 1)) = G (j + 1 + t)
      congr 1
      omega
    rw [hcomp]
    by_cases h : G j = 0
    · rw [if_pos h]
      simp only [List.nil_append]
      rw [ih (j + 1)]
      simp only [Nat.add_zero]
      omega
    · rw [if_neg h]
      simp only [List.singleton_append, List.map_cons, List.sum_cons]
      rw [ih (j + 1)]
      simp only [Nat.add_zero]

theorem presentPairs_sum (G : Nat → Nat) :
    ((presentPairs G).map Prod.snd).sum = sum256 G := by
  unfold presentPairs sum256
  rw [pairsFromGo_sum]
  simp

theorem sum256_toNat (f : Nat → Int) (hpos : ∀ j, 0 ≤ f j) (s : Nat)
    (hsum : ((List.range 256).map f).sum = (s : Int)) :
    sum256 (fun j => (f j).toNat) = s := by
  have hcast : ((List.range 256).map fun j => (((f j).toNat : Nat) : Int)).sum
      = ((List.range 256).map f).sum := by
    apply congrArg
    apply List.map_congr_left
    intro a _
    exact Int.toNat_of_nonneg (hpos a)
  have h2 : ((sum256 fun j => (f j).toNat : Nat) : Int) = (s : Int) := by
    rw [← hsum, ← hcast]
    unfold sum256
    rw [← listsum_natCast, List.map_map]
    rfl
  exact_mod_cast h2

theorem entry_le_sum256 (G : Nat → Nat) (k : Nat) (hk : k < 256) : G k ≤ sum256 G := by
  unfold sum256
  have hmem : k ∈ List.range 256 := List.mem_range.mpr hk
  exact List.single_le_sum (by simp) _ (List.mem_map_of_mem G hmem)

theorem sum256_pos_ex (G : Nat → Nat) (h : sum256 G ≠ 0) : ∃ j, j ≤ 255 ∧ G j ≠ 0 := by
  by_contra hcon
  push_neg at hcon
  apply h
  unfold sum256
  apply List.sum_eq_zero
  intro x hx
  obtain ⟨a, ha, rfl⟩ := List.mem_map.mp hx
  have := List.mem_range.mp ha
  exact hcon a (by omega)

theorem guard_nonneg (F : Nat → Nat) (T : Nat)
    (h : ¬ (List.range 256).any fun j => decide (o1RowNorm F T j < 0)) :
    ∀ j, 0 ≤ o1RowNorm F T j := by
  intro j
  by_cases hj : j < 256
  · simp only [List.any_eq_true, List.mem_range, decide_eq_true_eq, not_exists, not_and,
      not_lt] at h
    exact h j hj
  · unfold o1RowNorm
    rw [if_neg (by have := argmaxF_lt F; omega)]
    positivity

theorem o1F_hi (inp : List Nat) (hbytes : ∀ b ∈ inp, b < 256) (i j : Nat)
    (hj : 256 ≤ j) : o1F inp i j = 0 := by
  have hget : ∀ p, inp.getD p 0 < 256 := by
    intro p
    by_cases hp : p < inp.length
    · have h1 : inp.getD p 0 = inp[p] := List.getD_eq_getElem _ _ hp
      rw [h1]
      exact hbytes _ (List.getElem_mem hp)
    · rw [List.getD_eq_default _ _ (by omega)]
      omega
  unfold o1F
  have hcount : (o1Pairs inp).count (i, j) = 0 := by
    rw [List.count_eq_zero]
    intro hmem
    have := (List.of_mem_zip hmem).2
    have := hbytes _ this
    omega
  rw [hcount]
  by_cases hi : i = 0
  · rw [if_pos hi]
    rw [if_neg (by have := hget (inp.length / 4); omega),
      if_neg (by have := hget (2 * (inp.length / 4)); omega),
      if_neg (by have := hget (3 * (inp.length / 4)); omega)]
  · rw [if_neg hi]

theorem countF_hi (inp : List Nat) (hbytes : ∀ b ∈ inp, b < 256) (j : Nat)
    (hj : 256 ≤ j) : countF inp j = 0 := by
  unfold countF
  rw [List.count_eq_zero]
  intro hmem
  have := hbytes _ hmem
  omega

theorem emitRowGo_ne_nil (G : Nat → Nat) :
    ∀ fuel j rle, ∃ c t, emitRowGo G fuel j rle = c :: t := by
  intro fuel
  induction fuel with
  | zero => intro j rle; exact ⟨0, [], rfl⟩
  | succ f ih =>
    intro j rle
    rw [emitRowGo]
    by_cases h1 : G j = 0
    · rw [if_pos h1]
      exact ih (j + 1) rle
    · rw [if_neg h1]
      by_cases h2 : 0 < rle
      · rw [if_pos h2]
        obtain ⟨c, t, hct⟩ := freqBytes_ne_nil (G j)
        exact ⟨c, t ++ emitRowGo G f (j + 1) (rle - 1), by rw [hct]; rfl⟩
      · rw [if_neg h2]
        by_cases h3 : j ≠ 0 ∧ G (j - 1) ≠ 0
        · rw [if_pos h3]
          exact ⟨j, _, rfl⟩
        · rw [if_neg h3]
          exact ⟨j, _, rfl⟩

theorem ctxsFromGo_skip (F : Nat → Nat → Nat) (T : Nat → Nat) :
    ∀ d fuel i, (∀ k, i ≤ k → k < i + d → T k = 0) → d ≤ fuel →
      ctxsFromGo F T fuel i = ctxsFromGo F T (fuel - d) (i + d) := by
  intro d
  induction d with
  | zero => intro fuel i _ _; simp
  | succ n ih =>
    intro fuel i habs hd
    have hfuel : fuel = (fuel - 1) + 1 := by omega
    rw [hfuel, ctxsFromGo, if_pos (habs i (le_refl i) (by omega))]
    rw [List.nil_append]
    rw [ih (fuel - 1) (i + 1) (fun k h1 h2 => habs k (by omega) (by omega)) (by omega)]
    congr 1 <;> omega

theorem ctxsFromGo_absent (F : Nat → Nat → Nat) (T : Nat → Nat) :
    ∀ fuel i, (∀ k, i ≤ k → k < i + fuel → T k = 0) → ctxsFromGo F T fuel i = [] := by
  intro fuel i habs
  rw [ctxsFromGo_skip F T fuel fuel i habs (le_refl _)]
  simp [ctxsFromGo]

theorem emitTable1Go_skip (F : Nat → Nat → Nat) (T : Nat → Nat) :
    ∀ d fuel i rle, (∀ k, i ≤ k → k < i + d → T k = 0) → d ≤ fuel →
      emitTable1Go F T fuel i rle = emitTable1Go F T (fuel - d) (i + d) rle := by
  intro d
  induction d with
  | zero => intro fuel i rle _ _; simp
  | succ n ih =>
    intro fuel i rle habs hd
    have hfuel : fuel = (fuel - 1) + 1 := by omega
    rw [hfuel, emitTable1Go, if_pos (habs i (le_refl i) (by omega))]
    rw [ih (fuel - 1) (i + 1) rle (fun k h1 h2 => habs k (by omega) (by omega)) (by omega)]
    congr 1 <;> omega

theorem emitTable1Go_absent (F : Nat → Nat → Nat) (T : Nat → Nat) :
    ∀ fuel i rle, (∀ k, i ≤ k → k < i + fuel → T k = 0) →
      emitTable1Go F T fuel i rle = some [0] := by
  intro fuel i rle habs
  rw [emitTable1Go_skip F T fuel fuel i rle habs (le_refl _)]
  simp [emitTable1Go]

theorem ctxs_length_le (F : Nat → Nat → Nat) (T : Nat → Nat) :
    ∀ fuel i rle tb, emitTable1Go F T fuel i rle = some tb →
      (ctxsFromGo F T fuel i).length ≤ tb.length := by
  intro fuel
  induction fuel with
  | zero => intro i rle tb h; simp [ctxsFromGo]
  | succ f ih =>
    intro i rle tb h
    rw [emitTable1Go] at h
    rw [ctxsFromGo]
    by_cases hT : T i = 0
    · rw [if_pos hT] at h
      rw [if_pos hT, List.nil_append]
      exact ih (i + 1) rle tb h
    · rw [if_neg hT] at h
      rw [if_neg hT]
      dsimp only at h
      by_cases hneg : (List.range 256).any fun j =>
          decide (o1RowNorm (F i) (T i) j < 0)
      · rw [if_pos hneg] at h
        cases h
      · rw [if_neg hneg] at h
        obtain ⟨c, t, hct⟩ := emitRowGo_ne_nil (fun j =>
          (o1RowNorm (F i) (T i) j).toNat) 256 0 0
        by_cases hr : 0 < rle
        · rw [if_pos hr] at h
          cases hrec : emitTable1Go F T f (i + 1) (rle - 1) with
          | none => rw [hrec] at h; cases h
          | some rest =>
            rw [hrec] at h
            cases h
            have := ih (i + 1) (rle - 1) rest hrec
            simp only [List.singleton_append, List.length_cons, List.length_append]
            show (ctxsFromGo F T f (i + 1)).length + 1 ≤ (emitRow _).length + rest.length
            rw [show emitRow (fun j => (o1RowNorm (F i) (T i) j).toNat) = c :: t from hct]
            simp only [List.length_cons]
            omega
        · rw [if_neg hr] at h
          by_cases hpred : i ≠ 0 ∧ T (i - 1) ≠ 0
          · rw [if_pos hpred] at h
            cases hrec : emitTable1Go F T f (i + 1) (runScan T (i + 1)) with
            | none => rw [hrec] at h; cases h
            | some rest =>
              rw [hrec] at h
              cases h
              have := ih (i + 1) (runScan T (i + 1)) rest hrec
              simp only [List.singleton_append, List.length_cons, List.length_append]
              omega
          · rw [if_neg hpred] at h
            cases hrec : emitTable1Go F T f (i + 1) 0 with
            | none => rw [hrec] at h; cases h
            | some rest =>
              rw [hrec] at h
              cases h
              have := ih (i + 1) 0 rest hrec
              simp only [List.singleton_append, List.length_cons, List.length_append]
              omega

/-- Facts about a present, guard-passing row: its entries are bounded by
4095, it sums to 4095, and it has a present symbol. -/
theorem rowFv_facts (F : Nat → Nat → Nat) (T : Nat → Nat) (i : Nat)
    (hhi : ∀ k, 256 ≤ k → F i k = 0)
    (hpos : ∀ j, 0 ≤ o1RowNorm (F i) (T i) j) :
    (∀ k, rowFv F T i k ≤ 4095) ∧ sum256 (rowFv F T i) = 4095 ∧
      (∃ j, j ≤ 255 ∧ rowFv F T i j ≠ 0) := by
  have hsum : sum256 (rowFv F T i) = 4095 := by
    apply sum256_toNat _ hpos
    rw [o1RowNorm_sum]
    decide
  refine ⟨?_, hsum, sum256_pos_ex _ (by omega)⟩
  intro k
  by_cases hk : k < 256
  · have := entry_le_sum256 (rowFv F T i) k hk
    omega
  · show (o1RowNorm (F i) (T i) k).toNat ≤ 4095
    unfold o1RowNorm
    rw [if_neg (by have := argmaxF_lt (F i); omega)]
    have hF0 : F i k = 0 := hhi k (by omega)
    unfold o1RowScaled
    rw [if_pos hF0]
    simp

theorem parseTable1Go_emit (F : Nat → Nat → Nat) (T : Nat → Nat)
    (hhi : ∀ a k, 256 ≤ k → F a k = 0) :
    ∀ pfuel i rle acc rest tb,
      i ≤ 255 → T i ≠ 0 →
      (∀ t, 1 ≤ t → t ≤ rle → i + t ≤ 255 ∧ T (i + t) ≠ 0) →
      (∀ j, 0 ≤ o1RowNorm (F i) (T i) j) →
      emitTable1Go F T (255 - i) (i + 1) rle = some tb →
      (ctxsFromGo F T (256 - i) i).length + 1 ≤ pfuel →
      parseTable1Go pfuel (emitRow (rowFv F T i) ++ (tb ++ rest)) i rle acc
        = some (acc ++ ctxsFromGo F T (256 - i) i, rest) := by
  intro pfuel
  induction pfuel with
  | zero => intro i rle acc rest tb hi hTi hinv hpos hemit hpf; omega
  | succ pf ih =>
    intro i rle acc rest tb hi hTi hinv hpos hemit hpf
    have hsplitC : ctxsFromGo F T (256 - i) i
        = (i, presentPairs (rowFv F T i)) :: ctxsFromGo F T (255 - i) (i + 1) := by
      have h1 : 256 - i = (255 - i) + 1 := by omega
      rw [h1, ctxsFromGo, if_neg hTi]
      rfl
    have hlen2 : (ctxsFromGo F T (255 - i) (i + 1)).length + 1 ≤ pf := by
      rw [hsplitC] at hpf
      simp at hpf
      omega
    obtain ⟨hbnd, hsum, hex⟩ := rowFv_facts F T i (hhi i) hpos
    rw [parseTable1Go]
    rw [parseRow_emitRow true (rowFv F T i) hbnd hex
      (by rw [presentPairs_sum, hsum]; decide) (tb ++ rest)]
    simp only []
    by_cases hrle : 0 < rle
    · -- a run is pending: the emitter wrote the next row without index bytes
      have hi1 := hinv 1 (by omega) (by omega)
      rw [show 255 - i = (254 - i) + 1 from by omega, emitTable1Go] at hemit
      rw [if_neg hi1.2] at hemit
      dsimp only at hemit
      by_cases hneg : (List.range 256).any fun j =>
          decide (o1RowNorm (F (i + 1)) (T (i + 1)) j < 0)
      · rw [if_pos hneg] at hemit; cases hemit
      rw [if_neg hneg, if_pos hrle] at hemit
      have hpos1 := guard_nonneg (F (i + 1)) (T (i + 1)) hneg
      cases hrec : emitTable1Go F T (254 - i) (i + 1 + 1) (rle - 1) with
      | none => rw [hrec] at hemit; cases hemit
      | some tb1 =>
        rw [hrec] at hemit
        cases hemit
        have hlam : (fun j => (o1RowNorm (F (i + 1)) (T (i + 1)) j).toNat)
            = rowFv F T (i + 1) := rfl
        rw [hlam]
        obtain ⟨c, t, hct⟩ := emitRowGo_ne_nil (rowFv F T (i + 1)) 256 0 0
        have hct2 : emitRow (rowFv F T (i + 1)) = c :: t := hct
        rw [hct2]
        simp only [List.cons_append, List.append_assoc]
        rw [if_neg (by rintro ⟨h0, _⟩; omega : ¬ (rle = 0 ∧ c = i + 1))]
        rw [if_pos hrle]
        have harg : c :: (t ++ (tb1 ++ rest))
            = emitRow (rowFv F T (i + 1)) ++ (tb1 ++ rest) := by
          rw [hct2]
          simp [List.cons_append]
        rw [harg]
        have hrec2 : emitTable1Go F T (255 - (i + 1)) (i + 1 + 1) (rle - 1) = some tb1 := by
          rw [show 255 - (i + 1) = 254 - i from by omega]
          exact hrec
        have hres := ih (i + 1) (rle - 1) (acc ++ [(i, presentPairs (rowFv F T i))]) rest tb1
          (by omega) hi1.2
          (fun s hs1 hs2 => by
            have := hinv (s + 1) (by omega) (by omega)
            constructor
            · omega
            · rw [show i + 1 + s = i + (s + 1) from by omega]
              exact this.2)
          hpos1 hrec2
          (by
            rw [show 256 - (i + 1) = 255 - i from by omega]
            omega)
        rw [hres, hsplitC, show 256 - (i + 1) = 255 - i from by omega]
        simp
    · -- no pending run
      have hrle0 : rle = 0 := by omega
      subst hrle0
      by_cases hp : ∃ p, i < p ∧ p ≤ 255 ∧ T p ≠ 0
      · -- a later present context exists; take the least one
        obtain ⟨p, hip, hp255, hTp, hmin⟩ :
            ∃ p, i < p ∧ p ≤ 255 ∧ T p ≠ 0 ∧ ∀ k, i < k → k < p → T k = 0 := by
          have hfs := Nat.find_spec hp
          refine ⟨Nat.find hp, hfs.1, hfs.2.1, hfs.2.2, ?_⟩
          intro k h1 h2
          by_contra hcon
          exact Nat.find_min hp h2 ⟨h1, by omega, hcon⟩
        have hskip : ∀ k, i + 1 ≤ k → k < (i + 1) + (p - (i + 1)) → T k = 0 := by
          intro k h1 h2
          exact hmin k (by omega) (by omega)
        have hE : emitTable1Go F T (255 - i) (i + 1) 0 = emitTable1Go F T (256 - p) p 0 := by
          rw [emitTable1Go_skip F T (p - (i + 1)) (255 - i) (i + 1) 0 hskip (by omega)]
          rw [show 255 - i - (p - (i + 1)) = 256 - p from by omega,
            show i + 1 + (p - (i + 1)) = p from by omega]
        have hCtxs : ctxsFromGo F T (255 - i) (i + 1) = ctxsFromGo F T (256 - p) p := by
          rw [ctxsFromGo_skip F T (p - (i + 1)) (255 - i) (i + 1) hskip (by omega)]
          rw [show 255 - i - (p - (i + 1)) = 256 - p from by omega,
            show i + 1 + (p - (i + 1)) = p from by omega]
        rw [hE] at hemit
        rw [hCtxs] at hlen2
        rw [show 256 - p = (255 - p) + 1 from by omega, emitTable1Go] at hemit
        rw [if_neg hTp] at hemit
        dsimp only at hemit
        by_cases hneg : (List.range 256).any fun j =>
            decide (o1RowNorm (F p) (T p) j < 0)
        · rw [if_pos hneg] at hemit; cases hemit
        rw [if_neg hneg] at hemit
        rw [if_neg (by omega : ¬ (0 : Nat) < 0)] at hemit
        have hposp := guard_nonneg (F p) (T p) hneg
        have hlam : (fun j => (o1RowNorm (F p) (T p) j).toNat) = rowFv F T p := rfl
        by_cases hpj : p = i + 1
        · -- predecessor context present: index and run-length bytes
          rw [if_pos (by
            refine ⟨by omega, ?_⟩
            rw [show p - 1 = i from by omega]
            exact hTi)] at hemit
          cases hrec : emitTable1Go F T (255 - p) (p + 1) (runScan T (p + 1)) with
          | none => rw [hrec] at hemit; cases hemit
          | some tb1 =>
            rw [hrec] at hemit
            cases hemit
            rw [hlam]
            simp only [List.cons_append, List.append_assoc]
            rw [if_pos ⟨trivial, hpj⟩]
            obtain ⟨hrs1, hrs2⟩ := runScan_facts T (p + 1)
            have hres := ih p (runScan T (p + 1))
              (acc ++ [(i, presentPairs (rowFv F T i))]) rest tb1
              hp255 hTp
              (fun s hs1 hs2 => by
                constructor
                · omega
                · rw [show p + s = p + 1 + (s - 1) from by omega]
                  exact hrs2 (s - 1) (by omega))
              hposp hrec (by omega)
            rw [hres, hsplitC, hCtxs]
            simp
        · -- predecessor context absent: plain index byte
          rw [if_neg (by
            rintro ⟨_, hq⟩
            exact hq (hmin (p - 1) (by omega) (by omega)))] at hemit
          cases hrec : emitTable1Go F T (255 - p) (p + 1) 0 with
          | none => rw [hrec] at hemit; cases hemit
          | some tb1 =>
            rw [hrec] at hemit
            cases hemit
            rw [hlam]
            simp only [List.cons_append, List.append_assoc]
            rw [if_neg (by rintro ⟨_, hq⟩; exact hpj hq : ¬ (True ∧ p = i + 1))]
            rw [if_neg (by omega : ¬ (0 : Nat) < 0)]
            rw [if_neg (by omega : ¬ p = 0)]
            have hres := ih p 0 (acc ++ [(i, presentPairs (rowFv F T i))]) rest tb1
              hp255 hTp (fun s hs1 hs2 => by omega) hposp hrec (by omega)
            rw [hres, hsplitC, hCtxs]
            simp
      · -- no further present context: the emitter wrote the terminator
        have habs : ∀ k, i + 1 ≤ k → k < i + 1 + (255 - i) → T k = 0 := by
          intro k h1 h2
          by_contra hcon
          exact hp ⟨k, by omega, by omega, hcon⟩
        rw [emitTable1Go_absent F T (255 - i) (i + 1) 0 habs] at hemit
        cases hemit
        simp only [List.cons_append, List.nil_append]
        rw [if_neg (by rintro ⟨_, h0⟩; omega : ¬ (True ∧ (0 : Nat) = i + 1))]
        rw [if_neg (by omega : ¬ (0 : Nat) < 0)]
        rw [if_pos trivial]
        rw [hsplitC, ctxsFromGo_absent F T (255 - i) (i + 1) habs]

theorem parseTable1_emitTable1 (F : Nat → Nat → Nat) (T : Nat → Nat)
    (hhi : ∀ a k, 256 ≤ k → F a k = 0) (hex : ∃ i, i ≤ 255 ∧ T i ≠ 0)
    (tb rest : List Nat) (h : emitTable1 F T = some tb) :
    parseTable1 (tb ++ rest) = some (presentCtxs F T, rest) := by
  obtain ⟨q, hq255, hTq, hqmin⟩ :
      ∃ q, q ≤ 255 ∧ T q ≠ 0 ∧ ∀ k, k < q → T k = 0 := by
    have hfs := Nat.find_spec hex
    refine ⟨Nat.find hex, hfs.1, hfs.2, ?_⟩
    intro k h2
    by_contra hcon
    exact Nat.find_min hex h2 ⟨by omega, hcon⟩
  have hskip : ∀ k, 0 ≤ k → k < 0 + q → T k = 0 := fun k _ h2 => hqmin k (by omega)
  have hlen : (presentCtxs F T).length ≤ tb.length := ctxs_length_le F T 256 0 0 tb h
  have hC : presentCtxs F T = ctxsFromGo F T (256 - q) q := by
    show ctxsFromGo F T 256 0 = _
    rw [ctxsFromGo_skip F T q 256 0 hskip (by omega), Nat.zero_add]
  unfold emitTable1 at h
  rw [emitTable1Go_skip F T q 256 0 0 hskip (by omega), Nat.zero_add] at h
  rw [show 256 - q = (255 - q) + 1 from by omega, emitTable1Go] at h
  rw [if_neg hTq] at h
  dsimp only at h
  by_cases hneg : (List.range 256).any fun j => decide (o1RowNorm (F q) (T q) j < 0)
  · rw [if_pos hneg] at h; cases h
  rw [if_neg hneg] at h
  have hposq := guard_nonneg (F q) (T q) hneg
  rw [if_neg (by omega : ¬ (0 : Nat) < 0)] at h
  rw [if_neg (by
    rintro ⟨hq0, hq1⟩
    exact hq1 (hqmin (q - 1) (by omega)))] at h
  cases hrec : emitTable1Go F T (255 - q) (q + 1) 0 with
  | none => rw [hrec] at h; cases h
  | some tb1 =>
    rw [hrec] at h
    cases h
    have hlam : (fun j => (o1RowNorm (F q) (T q) j).toNat) = rowFv F T q := rfl
    rw [hlam]
    rw [hlam] at hlen
    simp only [List.cons_append, List.append_assoc]
    simp only [parseTable1]
    have hres := parseTable1Go_emit F T hhi
      ((q :: (emitRow (rowFv F T q) ++ (tb1 ++ rest))).length + 1)
      q 0 [] rest tb1 hq255 hTq (fun t ht1 ht2 => by omega) hposq hrec
      (by
        have hlc := congrArg List.length hC
        simp only [List.length_cons, List.length_append] at hlc hlen ⊢
        omega)
    rw [hres, hC]
    simp

theorem ctxsFromGo_mem (F : Nat → Nat → Nat) (T : Nat → Nat) :
    ∀ fuel j i pr, (i, pr) ∈ ctxsFromGo F T fuel j →
      T i ≠ 0 ∧ pr = presentPairs (rowFv F T i) ∧ j ≤ i ∧ i < j + fuel := by
  intro fuel
  induction fuel with
  | zero => intro j i pr h; cases h
  | succ f ih =>
    intro j i pr h
    rw [ctxsFromGo] at h
    rcases List.mem_append.mp h with h1 | h2
    · by_cases hT : T j = 0
      · rw [if_pos hT] at h1
        cases h1
      · rw [if_neg hT] at h1
        have h3 := List.mem_singleton.mp h1
        have hij : i = j := congrArg Prod.fst h3
        have hpr : pr = presentPairs (rowFv F T j) := congrArg Prod.snd h3
        subst hij
        exact ⟨hT, hpr, le_refl i, by omega⟩
    · have := ih (j + 1) i pr h2
      exact ⟨this.1, this.2.1, by omega, by omega⟩

theorem emitTable1_guard (F : Nat → Nat → Nat) (T : Nat → Nat) :
    ∀ fuel i rle tb, emitTable1Go F T fuel i rle = some tb →
      ∀ p, i ≤ p → p < i + fuel → T p ≠ 0 → ∀ j, 0 ≤ o1RowNorm (F p) (T p) j := by
  intro fuel
  induction fuel with
  | zero =>
    intro i rle tb _ p h1 h2
    exact absurd h2 (by omega)
  | succ f ih =>
    intro i rle tb h p h1 h2 hTp
    rw [emitTable1Go] at h
    by_cases hT : T i = 0
    · rw [if_pos hT] at h
      have hpi : i + 1 ≤ p := by
        rcases Nat.eq_or_lt_of_le h1 with rfl | hlt
        · exact absurd hT hTp
        · omega
      exact ih (i + 1) rle tb h p hpi (by omega) hTp
    · rw [if_neg hT] at h
      dsimp only at h
      by_cases hneg : (List.range 256).any fun j => decide (o1RowNorm (F i) (T i) j < 0)
      · rw [if_pos hneg] at h; cases h
      rw [if_neg hneg] at h
      rcases Nat.eq_or_lt_of_le h1 with rfl | hlt
      · exact guard_nonneg (F i) (T i) hneg
      · by_cases hr : 0 < rle
        · rw [if_pos hr] at h
          cases hrec : emitTable1Go F T f (i + 1) (rle - 1) with
          | none => rw [hrec] at h; cases h
          | some rest => exact ih (i + 1) (rle - 1) rest hrec p (by omega) (by omega) hTp
        · rw [if_neg hr] at h
          by_cases hpred : i ≠ 0 ∧ T (i - 1) ≠ 0
          · rw [if_pos hpred] at h
            cases hrec : emitTable1Go F T f (i + 1) (runScan T (i + 1)) with
            | none => rw [hrec] at h; cases h
            | some rest =>
              exact ih (i + 1) (runScan T (i + 1)) rest hrec p (by omega) (by omega) hTp
          · rw [if_neg hpred] at h
            cases hrec : emitTable1Go F T f (i + 1) 0 with
            | none => rw [hrec] at h; cases h
            | some rest => exact ih (i + 1) 0 rest hrec p (by omega) (by omega) hTp

/-- Every context row parsed back from a stored order-1 table sums to
TOTFREQ - 1. -/
theorem parsedRow1_sum (F : Nat → Nat → Nat) (T : Nat → Nat)
    (table pay : List Nat) (ctxs : List (Nat × List (Nat × Nat))) (rest : List Nat)
    (i : Nat) (pr : List (Nat × Nat))
    (hhi : ∀ a k, 256 ≤ k → F a k = 0) (hex : ∃ a, a ≤ 255 ∧ T a ≠ 0)
    (htb : emitTable1 F T = some table)
    (hparse : parseTable1 (table ++ pay) = some (ctxs, rest))
    (hmem : (i, pr) ∈ ctxs) :
    (pr.map Prod.snd).sum = TOTFREQ - 1 := by
  rw [parseTable1_emitTable1 F T hhi hex table pay htb] at hparse
  have hctxs : ctxs = presentCtxs F T := by
    cases hparse
    rfl
  rw [hctxs] at hmem
  obtain ⟨hTi, hpr, hlo, hhi2⟩ := ctxsFromGo_mem F T 256 0 i pr hmem
  have hposi := emitTable1_guard F T 256 0 0 table htb i (by omega) (by omega) hTi
  have hfacts := rowFv_facts F T i (fun k hk => hhi i k hk) hposi
  rw [hpr, presentPairs_sum, hfacts.2.1]
  decide

/-- Claim C3 (amended): the normalised frequencies of the order-0 table and
of every order-1 context row sum to TOTFREQ - 1 = 4095, not TOTFREQ (the
fsum++/t2++ before the adjustment targets one less than TOTFREQ, and the
order-0 decoder's assert(x < TOTFREQ) depends on it); accordingly every row
parsed back from a produced frame -- the single order-0 row as well as every
context row of an order-1 table -- sums to 4095. -/
theorem claim_C3_amended :
    (∀ (F : Nat → Nat) (n : Nat),
        ((List.range 256).map (o0Norm F n)).sum = (TOTFREQ : Int) - 1)
  ∧ (∀ (F : Nat → Nat) (T : Nat),
        ((List.range 256).map (o1RowNorm F T)).sum = (TOTFREQ : Int) - 1)
  ∧ (∀ inp frame pairs rest, (∀ b ∈ inp, b < 256) →
        rans_compress_O0 inp = some frame →
        parseRow false (frame.drop 9) = some (pairs, rest) →
        (pairs.map Prod.snd).sum = TOTFREQ - 1)
  ∧ (∀ (F : Nat → Nat → Nat) (T : Nat → Nat) table pay ctxs rest i pr,
        (∀ a k, 256 ≤ k → F a k = 0) → (∃ a, a ≤ 255 ∧ T a ≠ 0) →
        emitTable1 F T = some table →
        parseTable1 (table ++ pay) = some (ctxs, rest) →
        (i, pr) ∈ ctxs →
        (pr.map Prod.snd).sum = TOTFREQ - 1)
  ∧ (∀ inp frame ctxs rest i pr, (∀ b ∈ inp, b < 256) → 4 ≤ inp.length →
        rans_compress_O1 inp = some frame →
        parseTable1 (frame.drop 9) = some (ctxs, rest) →
        (i, pr) ∈ ctxs →
        (pr.map Prod.snd).sum = TOTFREQ - 1) := by
  refine ⟨o0Norm_sum, o1RowNorm_sum, ?_, parsedRow1_sum, ?_⟩
  · intro inp frame pairs rest hbytes h hparse
    unfold rans_compress_O0 o0CompressCore at h
    simp only [] at h
    by_cases hg : 2 ^ 31 ≤ ftruncNat (fmulNat inp.length d105)
    · rw [if_pos hg] at h; cases h
    rw [if_neg hg] at h
    by_cases hn0 : inp.length = 0
    · rw [if_pos hn0] at h; cases h
    rw [if_neg hn0] at h
    by_cases hM : o0Norm (countF inp) inp.length (argmaxF (countF inp)) ≤ 0
    · rw [if_pos hM] at h; cases h
    rw [if_neg hM] at h
    cases hsy : o0Syms fun j => (o0Norm (countF inp) inp.length j).toNat with
    | none => rw [hsy] at h; cases h
    | some syms =>
      rw [hsy] at h
      cases h
      have hpos : ∀ j, 0 ≤ o0Norm (countF inp) inp.length j := by
        intro j
        by_cases hj : j = argmaxF (countF inp)
        · rw [hj]; omega
        · unfold o0Norm
          rw [if_neg hj]
          positivity
      have hsumFv : sum256 (fun j => (o0Norm (countF inp) inp.length j).toNat) = 4095 :=
        sum256_toNat _ hpos _ (by rw [o0Norm_sum]; decide)
      have hb : ∀ k, (o0Norm (countF inp) inp.length k).toNat ≤ 4095 := by
        intro k
        by_cases hk : k < 256
        · have := entry_le_sum256 (fun j => (o0Norm (countF inp) inp.length j).toNat) k hk
          simp only [] at this
          omega
        · unfold o0Norm
          rw [if_neg (by have := argmaxF_lt (countF inp); omega)]
          unfold o0Scaled
          rw [if_pos (countF_hi inp hbytes k (by omega))]
          simp
      have hex := sum256_pos_ex (fun j => (o0Norm (countF inp) inp.length j).toNat)
        (by omega)
      have hdrop9 : (((0 : Nat) :: le32 ((9 : Nat) +
          (emitRow fun j => (o0Norm (countF inp) inp.length j).toNat).length +
          (encFlushAll (o0EncMainGo syms inp (inp.length / 4)
            (o0EncTail syms inp encInitSt))).length - 9)) ++
          le32 inp.length ++ (emitRow fun j => (o0Norm (countF inp) inp.length j).toNat)
          ++ encFlushAll (o0EncMainGo syms inp (inp.length / 4)
            (o0EncTail syms inp encInitSt))).drop 9
          = (emitRow fun j => (o0Norm (countF inp) inp.length j).toNat)
            ++ encFlushAll (o0EncMainGo syms inp (inp.length / 4)
              (o0EncTail syms inp encInitSt)) := by
        simp [le32]
      rw [hdrop9] at hparse
      rw [parseRow_emitRow false (fun j => (o0Norm (countF inp) inp.length j).toNat)
        hb hex (by rw [presentPairs_sum, hsumFv]; decide) _] at hparse
      have hpairs : pairs = presentPairs fun j => (o0Norm (countF inp) inp.length j).toNat := by
        cases hparse
        rfl
      rw [hpairs, presentPairs_sum, hsumFv]
      decide
  · intro inp frame ctxs rest i pr hbytes h4 h hparse hmem
    unfold rans_compress_O1 at h
    rw [if_neg (by omega)] at h
    unfold o1CompressCore at h
    simp only [] at h
    by_cases hg : 2 ^ 31 ≤ ftruncNat (fmulNat inp.length d105)
    · rw [if_pos hg] at h; cases h
    rw [if_neg hg] at h
    cases htb : emitTable1 (o1F inp) (o1T inp) with
    | none => rw [htb] at h; cases h
    | some table =>
      rw [htb] at h
      cases hsy : o1Syms (o1F inp) (o1T inp) with
      | none => rw [hsy] at h; cases h
      | some syms2 =>
        rw [hsy] at h
        cases h
        have hT0 : o1T inp 0 ≠ 0 := by
          unfold o1T
          rw [if_pos rfl]
          omega
        have hdrop9 : ∀ (a : Nat) (pay : List Nat),
            (((1 : Nat) :: le32 a) ++ le32 inp.length ++ table ++ pay).drop 9
              = table ++ pay := by
          intro a pay
          simp [le32]
        rw [hdrop9] at hparse
        exact parsedRow1_sum (o1F inp) (o1T inp) table _ ctxs rest i pr
          (o1F_hi inp hbytes) ⟨0, by omega, hT0⟩ htb hparse hmem

theorem claim_C3_witness :
    ((List.range 256).map (o0Norm (countF [65]) 1)).sum = (TOTFREQ : Int) - 1
  ∧ (([((65 : Nat), (2730 : Nat)), (66, 1365)].map Prod.snd).sum = TOTFREQ - 1)
  ∧ (([((1 : Nat), (4095 : Nat))].map Prod.snd).sum = TOTFREQ - 1) :=
  ⟨claim_C3_amended.1 (countF [65]) 1,
   claim_C3_amended.2.2.1 [65, 66, 65] frameABA [(65, 2730), (66, 1365)]
     [0, 8, 192, 0, 85, 29, 128, 1, 0, 8, 192, 0, 0, 0, 128, 0]
     (by decide) (by decide) (by decide),
   claim_C3_amended.2.2.2.1 (fun a k => if a = 0 ∧ k = 1 then 2 else 0)
     (fun a => if a = 0 then 2 else 0)
     [0, 1, 143, 255, 0, 0] [] [(0, [(1, 4095)])] [] 0 [(1, 4095)]
     (by
       intro a k hk
       show (if a = 0 ∧ k = 1 then 2 else 0) = 0
       rw [if_neg (by rintro ⟨_, h1⟩; omega)])
     ⟨0, by omega, by decide⟩
     (by decide) (by decide) (by decide)⟩

/-- Claim C7 (amended): order-1 normalisation is applied independently per
context row with the row total T[i], every nonzero count maps to a
frequency of at least 1, and the adjusted row sums to TOTFREQ - 1; but the
scaling is the C double arithmetic F * (4096.0 / T[i]) truncated (binary64,
modelled by fdivNat/fmulNat/ftruncNat), equivalently max(1, trunc(F * p)),
not the claimed order-0 integer formula tr = (2^12 << 31)/N + (1 << 30)/N
(the counterexample exhibits a row where the two differ). -/
theorem claim_C7_amended :
    (∀ (F : Nat → Nat) (T j : Nat), F j ≠ 0 → 1 ≤ o1RowScaled F T j)
  ∧ (∀ (F : Nat → Nat) (T : Nat),
      ((List.range 256).map (o1RowNorm F T)).sum = (TOTFREQ : Int) - 1)
  ∧ (∀ (F : Nat → Nat) (T j : Nat), F j ≠ 0 →
      o1RowScaled F T j = max 1 (ftruncNat (fmulNat (F j) (fdivNat TOTFREQ T)))) := by
  refine ⟨o1RowScaled_pos, o1RowNorm_sum, ?_⟩
  intro F T j h
  unfold o1RowScaled
  rw [if_neg h]
  dsimp only
  by_cases hv : ftruncNat (fmulNat (F j) (fdivNat TOTFREQ T)) = 0
  · rw [if_pos hv, hv]
    omega
  · rw [if_neg hv]
    omega

theorem claim_C7_witness :
    1 ≤ o1RowScaled (o1F inputB22 1) (o1T inputB22 1) 3
  ∧ o1RowScaled (o1F inputB22 1) (o1T inputB22 1) 3
      = max 1 (ftruncNat (fmulNat (o1F inputB22 1 3) (fdivNat TOTFREQ (o1T inputB22 1)))) :=
  ⟨claim_C7_amended.1 (o1F inputB22 1) (o1T inputB22 1) 3 (by decide),
   claim_C7_amended.2.2 (o1F inputB22 1) (o1T inputB22 1) 3 (by decide)⟩
